import Mathlib

/-!
# MediaMuxer.h (woogeen_base): frame queue and one-shot completion callback

A shallow embedding of `src/source/core/woogeen_base/MediaMuxer.h`.

* `EncodedFrame`     : the constructor that deep-copies `length` bytes.
* `MediaFrameQueue`  : `pushFrame` (append, then evict from the head while the
  size exceeds `m_max`) and `popFrame`.
* `MediaMuxer`       : `resetEventRegistry` and `callback`.

The wall clock (`currentTimeMs()`) is an input of every operation that reads
it.  Heap effects that leave the object (`delete m_callback`,
`m_callback->notify(data)`) are recorded in an explicit `World` trace.
-/

namespace woogeen_base

/-! ## Machine types -/

/-- A `uint8_t`. -/
abbrev Byte := Fin 256

/-- A `uint16_t`, the type of `length` and of `m_payloadSize`. -/
abbrev UInt16Val := Fin 65536

/-- The value a 64-bit two's complement word holds for the integer `x`: the
result of `long` and `int64_t` arithmetic on the LP64 targets of the server. -/
def wrapInt64 (x : Int) : Int :=
  (x + 2 ^ 63) % 2 ^ 64 - 2 ^ 63

/-- A `memcpy(dst, src, n)` into a fresh array of `n` bytes: the destination
holds the first `n` bytes of the source. -/
def memcpy (src : List Byte) (n : Nat) : List Byte :=
  src.take n

/-! ## EncodedFrame -/

/-- The class `EncodedFrame`: `m_payloadData` is the owned array, held as the
list of its bytes. -/
structure EncodedFrame where
  m_timeStamp : Int
  m_payloadData : List Byte
  m_payloadSize : UInt16Val
deriving DecidableEq, Repr

/-- The constructor `EncodedFrame(data, length, timeStamp)` (lines 46-54). -/
def EncodedFrame.new (data : List Byte) (length : UInt16Val) (timeStamp : Int) :
    EncodedFrame :=
  { m_timeStamp := timeStamp
    m_payloadData := memcpy data length.val
    m_payloadSize := length }

/-! ## SharedQueue -/

/-- Modelled from the spec: the class template `SharedQueue` of
`SharedQueue.h`, which is not part of the sources at hand.  The spec describes
the buffer as an ordered FIFO sequence: `push` appends to the tail, `pop`
removes and returns the head and blocks the caller while the buffer is empty. -/
structure SharedQueue (α : Type) where
  items : List α
deriving DecidableEq, Repr

namespace SharedQueue

variable {α : Type}

/-- Modelled from the spec: `SharedQueue::push` appends to the tail. -/
def push (q : SharedQueue α) (x : α) : SharedQueue α :=
  ⟨q.items ++ [x]⟩

/-- Modelled from the spec: `SharedQueue::size`. -/
def size (q : SharedQueue α) : Nat :=
  q.items.length

/-- Modelled from the spec: `SharedQueue::pop(out)` removes the head and
stores it in `out`.  On an empty buffer the call blocks: it does not complete
in this state, which is the result `none`. -/
def pop (q : SharedQueue α) : Option (α × SharedQueue α) :=
  match q.items with
  | [] => none
  | x :: xs => some (x, ⟨xs⟩)

end SharedQueue

/-! ## MediaFrameQueue -/

/-- The constant `DEFAULT_QUEUE_MAX` (line 69). -/
def DEFAULT_QUEUE_MAX : Nat := 10

/-- The class `MediaFrameQueue` (lines 71-109).  `m_max` is an `unsigned int`
that is only ever compared with the size. -/
structure MediaFrameQueue where
  m_queue : SharedQueue EncodedFrame
  m_max : Nat
  m_startTimeOffset : Int
deriving DecidableEq, Repr

namespace MediaFrameQueue

/-- The constructor `MediaFrameQueue(max)` (lines 74-78); `now` is the value
`currentTimeMs()` returns during construction. -/
def new (max : Nat) (now : Int) : MediaFrameQueue :=
  { m_queue := ⟨[]⟩, m_max := max, m_startTimeOffset := now }

/-- The number of entries, `m_queue.size()`. -/
def size (q : MediaFrameQueue) : Nat :=
  q.m_queue.size

/-- The entries, head first. -/
def entries (q : MediaFrameQueue) : List EncodedFrame :=
  q.m_queue.items

/-- The loop of lines 92-93, `while (m_queue.size() > m_max) m_queue.pop(frame);`.
The result is the list of frames the loop stored in `frame`, in order, and the
queue it leaves; `none` when a `pop` blocks. -/
def enforceMax (max : Nat) (q : SharedQueue EncodedFrame) :
    Option (List EncodedFrame × SharedQueue EncodedFrame) :=
  if q.size > max then
    match h : q.pop with
    | none => none
    | some (frame, q1) =>
      match enforceMax max q1 with
      | none => none
      | some (dropped, q2) => some (frame :: dropped, q2)
  else
    some ([], q)
termination_by q.size
decreasing_by
  cases q with
  | mk items =>
    cases items with
    | nil => simp [SharedQueue.pop] at h
    | cons x xs =>
      simp only [SharedQueue.pop, Option.some.injEq, Prod.mk.injEq] at h
      obtain ⟨-, rfl⟩ := h
      simp [SharedQueue.size]

/-- The body of `pushFrame(data, length)` (lines 84-94) together with the list
of frames its loop discarded; `now` is the value `currentTimeMs()` returns on
line 86, an `int64_t` like `m_startTimeOffset`; the subtraction of line 86 is
an `int64_t` operation. -/
def pushFrameTrace (q : MediaFrameQueue) (data : List Byte) (length : UInt16Val)
    (now : Int) : Option (List EncodedFrame × MediaFrameQueue) :=
  let timestamp := wrapInt64 (now - q.m_startTimeOffset)
  let newFrame := EncodedFrame.new data length timestamp
  let pushed := q.m_queue.push newFrame
  match enforceMax q.m_max pushed with
  | none => none
  | some (dropped, rest) => some (dropped, { q with m_queue := rest })

/-- The method `pushFrame(data, length)` (lines 84-94): the queue it leaves,
`none` when the call does not return. -/
def pushFrame (q : MediaFrameQueue) (data : List Byte) (length : UInt16Val)
    (now : Int) : Option MediaFrameQueue :=
  (pushFrameTrace q data length now).map Prod.snd

/-- The method `popFrame()` (lines 96-101): the frame returned and the queue
left; `none` when `m_queue.pop` blocks. -/
def popFrame (q : MediaFrameQueue) : Option (EncodedFrame × MediaFrameQueue) :=
  match q.m_queue.pop with
  | none => none
  | some (frame, rest) => some (frame, { q with m_queue := rest })

end MediaFrameQueue

/-- One call of `pushFrame`: the arguments and the clock reading taken in it. -/
structure PushInput where
  data : List Byte
  length : UInt16Val
  now : Int
deriving DecidableEq, Repr

/-- The frame `pushFrame` builds for an input on a queue constructed at clock
reading `start` (lines 86-87). -/
def PushInput.frame (start : Int) (i : PushInput) : EncodedFrame :=
  EncodedFrame.new i.data i.length (wrapInt64 (i.now - start))

namespace MediaFrameQueue

/-- Successive `pushFrame` calls, one per input, in order. -/
def pushFrames (q : MediaFrameQueue) : List PushInput → Option MediaFrameQueue
  | [] => some q
  | i :: rest =>
    match pushFrame q i.data i.length i.now with
    | none => none
    | some q1 => pushFrames q1 rest

/-- Successive `pushFrame` calls together with the frames their loops
discarded, in the order they were discarded. -/
def pushFramesTrace (q : MediaFrameQueue) :
    List PushInput → Option (List EncodedFrame × MediaFrameQueue)
  | [] => some ([], q)
  | i :: rest =>
    match pushFrameTrace q i.data i.length i.now with
    | none => none
    | some (dropped1, q1) =>
      match pushFramesTrace q1 rest with
      | none => none
      | some (dropped2, q2) => some (dropped1 ++ dropped2, q2)

/-- The first `n` successive `popFrame` calls: the frames returned, in order,
and the queue left; `none` when one of the calls blocks. -/
def popFrames : Nat → MediaFrameQueue → Option (List EncodedFrame × MediaFrameQueue)
  | 0, q => some ([], q)
  | n + 1, q =>
    match popFrame q with
    | none => none
    | some (frame, q1) =>
      match popFrames n q1 with
      | none => none
      | some (frames, q2) => some (frame :: frames, q2)

end MediaFrameQueue

/-- One call on a `MediaFrameQueue`. -/
inductive QueueOp where
  | push (i : PushInput)
  | pop
deriving DecidableEq, Repr

namespace MediaFrameQueue

/-- The queue after one call, `none` when the call blocks. -/
def applyOp (q : MediaFrameQueue) : QueueOp → Option MediaFrameQueue
  | .push i => pushFrame q i.data i.length i.now
  | .pop => (popFrame q).map Prod.snd

/-- The queue after a sequence of calls made one after another, `none` when one
of them blocks. -/
def applyOps (q : MediaFrameQueue) : List QueueOp → Option MediaFrameQueue
  | [] => some q
  | op :: rest =>
    match applyOp q op with
    | none => none
    | some q1 => applyOps q1 rest

end MediaFrameQueue

/-- A one-byte frame input: the byte, and the clock reading of the push. -/
def oneByte (b : Byte) (now : Int) : PushInput :=
  { data := [b], length := 1, now := now }

/-- The pushes of the frames A, B, C, D, E at the clock readings 101..105. -/
def pushesAtoE : List PushInput :=
  [oneByte 65 101, oneByte 66 102, oneByte 67 103, oneByte 68 104, oneByte 69 105]

/-! ## MediaMuxer -/

/-- The address of an `EventRegistry` object; a null pointer is `none` of
`Option RegistryPtr`. -/
abbrev RegistryPtr := Nat

/-- The enum `MediaMuxer::Status` (line 113). -/
inductive Status where
  | Context_ERROR
  | Context_EMPTY
  | Context_READY
deriving DecidableEq, Repr

/-- The integer value of a `Status` enumerator (line 113). -/
def Status.toInt : Status → Int
  | .Context_ERROR => -1
  | .Context_EMPTY => 0
  | .Context_READY => 1

/-- The effects of a `MediaMuxer` on the objects outside it, in the order they
happen: `notified` lists every `m_callback->notify(data)` as the registry
called and the data passed, `deleted` lists every registry released by
`delete m_callback`. -/
structure World where
  notified : List (RegistryPtr × String)
  deleted : List RegistryPtr
deriving DecidableEq, Repr

/-- The data members `m_status`, `m_callback` and `m_callbackCalled` of the
class `MediaMuxer` (lines 144, 156, 157). -/
structure MediaMuxer where
  m_status : Status
  m_callback : Option RegistryPtr
  m_callbackCalled : Bool
deriving DecidableEq, Repr

namespace MediaMuxer

/-- The constructor `MediaMuxer(registry = nullptr)` (line 118). -/
def new (registry : Option RegistryPtr) : MediaMuxer :=
  { m_status := .Context_EMPTY, m_callback := registry, m_callbackCalled := false }

/-- The method `resetEventRegistry(newRegistry)` (lines 120-132): the value
returned, the object and the world afterwards. -/
def resetEventRegistry (m : MediaMuxer) (w : World) (newRegistry : Option RegistryPtr) :
    Bool × MediaMuxer × World :=
  if newRegistry.isNone || m.m_callback == newRegistry then
    (false, m, w)
  else
    let w1 : World :=
      match m.m_callback with
      | some old => { w with deleted := w.deleted ++ [old] }
      | none => w
    (true, { m with m_callback := newRegistry, m_callbackCalled := false }, w1)

/-- The method `callback(data)` (lines 149-154). -/
def callback (m : MediaMuxer) (w : World) (data : String) : MediaMuxer × World :=
  match m.m_callback with
  | some registry =>
    if !m.m_callbackCalled then
      ({ m with m_callbackCalled := true },
        { w with notified := w.notified ++ [(registry, data)] })
    else
      (m, w)
  | none => (m, w)

/-- Successive `callback` calls made one after another, one per element. -/
def callbacks (m : MediaMuxer) (w : World) : List String → MediaMuxer × World
  | [] => (m, w)
  | data :: rest =>
    let r := callback m w data
    callbacks r.1 r.2 rest

end MediaMuxer

/-! ## Interleaved executions of `callback`

`m_callbackCalled` is a plain `bool` and `callback` holds no lock, so between
the read of the flag in the condition of line 150, the write of line 151 and
the call of line 152 another context may run.  A call in progress is a
program counter over these three accesses. -/

/-- Where a call of `callback` stands: before the condition of line 150,
before the write of line 151, before the `notify` of line 152, or returned. -/
inductive CallbackPc where
  | atTest
  | atSet
  | atNotify
  | returned
deriving DecidableEq, Repr

/-- A call of `callback(data)` in progress in one context. -/
structure CallbackCall where
  data : String
  pc : CallbackPc
deriving DecidableEq, Repr

/-- One `MediaMuxer` shared by the calls of `callback` in progress. -/
structure Shared where
  mux : MediaMuxer
  world : World
  calls : List CallbackCall
deriving DecidableEq, Repr

namespace Shared

/-- The next access of one call of `callback` (lines 150, 151, 152). -/
def stepCall (m : MediaMuxer) (w : World) (c : CallbackCall) :
    MediaMuxer × World × CallbackCall :=
  match c.pc with
  | .atTest =>
    if m.m_callback.isSome && !m.m_callbackCalled then
      (m, w, { c with pc := .atSet })
    else
      (m, w, { c with pc := .returned })
  | .atSet => ({ m with m_callbackCalled := true }, w, { c with pc := .atNotify })
  | .atNotify =>
    match m.m_callback with
    | some registry =>
      (m, { w with notified := w.notified ++ [(registry, c.data)] },
        { c with pc := .returned })
    | none => (m, w, { c with pc := .returned })
  | .returned => (m, w, c)

/-- The context `i` runs the next access of its call; no call `i`, no step. -/
def step (s : Shared) (i : Nat) : Shared :=
  match s.calls[i]? with
  | none => s
  | some c =>
    let r := stepCall s.mux s.world c
    { mux := r.1, world := r.2.1, calls := s.calls.set i r.2.2 }

/-- A schedule: the contexts that run, one access each, in order. -/
def run (s : Shared) : List Nat → Shared
  | [] => s
  | i :: rest => run (step s i) rest

/-- The calls `callback(d)` for each `d`, none of them started. -/
def start (m : MediaMuxer) (w : World) (datas : List String) : Shared :=
  { mux := m, world := w, calls := datas.map (fun d => { data := d, pc := .atTest }) }

/-- The schedule in which each of the `n` calls `k`, `k + 1`, ... runs its three
accesses before the next call starts. -/
def sequentialFrom (k n : Nat) : List Nat :=
  (List.range' k n).flatMap (fun i => [i, i, i])

/-- The schedule in which each of `n` calls runs its three accesses before the
next call starts. -/
def sequential (n : Nat) : List Nat :=
  sequentialFrom 0 n

/-- Every call has returned. -/
def allReturned (s : Shared) : Bool :=
  s.calls.all (fun c => c.pc == .returned)

/-- The weight of a call in the count of the calls that may still deliver. -/
def pending (c : CallbackCall) : Nat :=
  if c.pc = .returned then 0 else 1

/-- What every schedule keeps true of the calls `callback(d)`, `d` in `datas`,
started on a muxer with the notifier `registry` and the flag false, in a world
with the deliveries `notified0`. -/
def Inv (notified0 : List (RegistryPtr × String)) (registry : RegistryPtr)
    (datas : List String) (s : Shared) : Prop :=
  s.mux.m_callback = some registry ∧
  s.calls.map (fun c => c.data) = datas ∧
  ∃ extra, s.world.notified = notified0 ++ extra ∧
    (∀ x ∈ extra, x.1 = registry ∧ x.2 ∈ datas) ∧
    extra.length + (s.calls.map pending).sum ≤ datas.length ∧
    (s.mux.m_callbackCalled = false →
      ∀ (j : Nat) (c : CallbackCall), s.calls[j]? = some c →
        c.pc = .atTest ∨ c.pc = .atSet) ∧
    (s.mux.m_callbackCalled = true →
      (∃ (j : Nat) (c : CallbackCall), s.calls[j]? = some c ∧ c.pc = .atNotify) ∨
        1 ≤ extra.length)

end Shared

/-! ## currentTimeMs -/

/-- The struct `timeval` that `gettimeofday` fills; `tv_sec` (`time_t`) and
`tv_usec` (`suseconds_t`) are 64-bit `long` values. -/
structure Timeval where
  tv_sec : Int
  tv_usec : Int
deriving DecidableEq, Repr

/-- The function `currentTimeMs()` (lines 37-41); `time` is what
`gettimeofday(&time, nullptr)` stores on line 39.  The product and the sum are
`long` operations, the quotient truncates toward zero. -/
def currentTimeMs (time : Timeval) : Int :=
  wrapInt64 (wrapInt64 (time.tv_sec * 1000) + Int.tdiv time.tv_usec 1000)

/-- The lexicographic order on `(tv_sec, tv_usec)`. -/
def Timeval.lexLE (a b : Timeval) : Prop :=
  a.tv_sec < b.tv_sec ∨ (a.tv_sec = b.tv_sec ∧ a.tv_usec ≤ b.tv_usec)

/-! ## Runs of calls on a `MediaMuxer` -/

/-- One call on a `MediaMuxer`: `resetEventRegistry(newRegistry)` or
`callback(data)`. -/
inductive MuxerOp where
  | reset (newRegistry : Option RegistryPtr)
  | call (data : String)
deriving DecidableEq, Repr

namespace MediaMuxer

/-- The calls made one after another: the object and the world they leave, and
the number of `resetEventRegistry` calls that returned true. -/
def runOps (m : MediaMuxer) (w : World) : List MuxerOp → MediaMuxer × World × Nat
  | [] => (m, w, 0)
  | .reset newRegistry :: rest =>
    let r := m.resetEventRegistry w newRegistry
    let t := runOps r.2.1 r.2.2 rest
    (t.1, t.2.1, t.2.2 + (if r.1 then 1 else 0))
  | .call data :: rest =>
    let r := m.callback w data
    runOps r.1 r.2 rest

end MediaMuxer

/-! ## Runs of calls on a `MediaFrameQueue`, with what leaves the queue -/

/-- A frame leaving the queue: returned by `popFrame` or discarded by the loop
of `pushFrame`. -/
inductive QueueEvent where
  | returned (frame : EncodedFrame)
  | evicted (frame : EncodedFrame)
deriving DecidableEq, Repr

/-- The frame of an event. -/
def QueueEvent.frame : QueueEvent → EncodedFrame
  | .returned f => f
  | .evicted f => f

/-- The frames the `popFrame` calls returned, in call order. -/
def returnedFrames : List QueueEvent → List EncodedFrame
  | [] => []
  | .returned f :: rest => f :: returnedFrames rest
  | .evicted _ :: rest => returnedFrames rest

/-- The frames the `pushFrame` calls of a run build, in call order, on a queue
constructed at the clock reading `start`. -/
def pushedFrames (start : Int) : List QueueOp → List EncodedFrame
  | [] => []
  | .push i :: rest => i.frame start :: pushedFrames start rest
  | .pop :: rest => pushedFrames start rest

namespace MediaFrameQueue

/-- The calls made one after another: the frames that left the queue, in the
order they left, and the queue at the end; `none` when a call blocks. -/
def applyOpsTrace (q : MediaFrameQueue) :
    List QueueOp → Option (List QueueEvent × MediaFrameQueue)
  | [] => some ([], q)
  | .push i :: rest =>
    match pushFrameTrace q i.data i.length i.now with
    | none => none
    | some (dropped, q1) =>
      match applyOpsTrace q1 rest with
      | none => none
      | some (events, q2) => some (dropped.map QueueEvent.evicted ++ events, q2)
  | .pop :: rest =>
    match popFrame q with
    | none => none
    | some (frame, q1) =>
      match applyOpsTrace q1 rest with
      | none => none
      | some (events, q2) => some (QueueEvent.returned frame :: events, q2)

end MediaFrameQueue

/-- A run on a queue of capacity 2: the pushes of A, B, C, a pop, the push of
D and two pops. -/
def runABCD : List QueueOp :=
  [.push (oneByte 65 101), .push (oneByte 66 102), .push (oneByte 67 103), .pop,
    .push (oneByte 68 104), .pop, .pop]

/-! ## Helper lemmas on the queue -/

namespace MediaFrameQueue

theorem enforceMax_eq (max : Nat) (q : SharedQueue EncodedFrame) :
    enforceMax max q =
      some (q.items.take (q.size - max), ⟨q.items.drop (q.size - max)⟩) := by
  obtain ⟨items⟩ := q
  induction items with
  | nil =>
    rw [enforceMax]
    simp [SharedQueue.size]
  | cons x xs ih =>
    rw [enforceMax]
    by_cases hgt : (SharedQueue.mk (x :: xs)).size > max
    · simp only [hgt, if_true]
      have hpop : (SharedQueue.mk (x :: xs)).pop = some (x, ⟨xs⟩) := rfl
      split
      · rename_i h
        rw [hpop] at h
        cases h
      · rename_i frame q' h
        rw [hpop] at h
        simp only [Option.some.injEq, Prod.mk.injEq] at h
        obtain ⟨rfl, rfl⟩ := h
        rw [ih]
        simp only [SharedQueue.size, List.length_cons] at hgt ⊢
        have e : xs.length + 1 - max = (xs.length - max) + 1 := by omega
        simp [e]
    · simp only [hgt, if_false]
      simp only [SharedQueue.size, List.length_cons] at hgt ⊢
      have e : xs.length + 1 - max = 0 := by omega
      simp [e]

theorem pushFrameTrace_eq (q : MediaFrameQueue) (data : List Byte) (length : UInt16Val)
    (now : Int) :
    pushFrameTrace q data length now =
      some ((q.entries ++ [EncodedFrame.new data length (wrapInt64 (now - q.m_startTimeOffset))]).take
              (q.size + 1 - q.m_max),
            { q with m_queue :=
                ⟨(q.entries ++ [EncodedFrame.new data length (wrapInt64 (now - q.m_startTimeOffset))]).drop
                  (q.size + 1 - q.m_max)⟩ }) := by
  simp [pushFrameTrace, enforceMax_eq, SharedQueue.push, SharedQueue.size, entries, size]

theorem pushFrame_eq (q : MediaFrameQueue) (data : List Byte) (length : UInt16Val)
    (now : Int) :
    pushFrame q data length now =
      some { q with m_queue :=
                ⟨(q.entries ++ [EncodedFrame.new data length (wrapInt64 (now - q.m_startTimeOffset))]).drop
                  (q.size + 1 - q.m_max)⟩ } := by
  simp [pushFrame, pushFrameTrace_eq]

theorem pushFrames_eq (inputs : List PushInput) (q : MediaFrameQueue)
    (hq : q.size ≤ q.m_max) :
    pushFrames q inputs =
      some { q with m_queue :=
                ⟨(q.entries ++ inputs.map (PushInput.frame q.m_startTimeOffset)).drop
                  (q.size + inputs.length - q.m_max)⟩ } := by
  induction inputs generalizing q with
  | nil =>
    obtain ⟨⟨items⟩, max, start⟩ := q
    simp only [size, SharedQueue.size] at hq
    have e0 : items.length - max = 0 := by omega
    simp [pushFrames, entries, size, SharedQueue.size, e0]
  | cons i rest ih =>
    rw [pushFrames, pushFrame_eq]
    obtain ⟨⟨items⟩, max, start⟩ := q
    simp only [size, SharedQueue.size] at hq
    have hsz : (MediaFrameQueue.mk
        ⟨(items ++ [EncodedFrame.new i.data i.length (wrapInt64 (i.now - start))]).drop
          (items.length + 1 - max)⟩ max start).size ≤ max := by
      simp only [size, SharedQueue.size, List.length_drop, List.length_append,
        List.length_singleton]
      omega
    simp only [entries, size, SharedQueue.size] at ih hsz ⊢
    rw [ih _ hsz]
    simp only [List.map_cons, List.length_cons, List.length_drop, List.length_append,
      List.length_singleton, List.length_nil, Nat.zero_add, PushInput.frame]
    congr 3
    by_cases hle : items.length + 1 ≤ max
    · have e1 : items.length + 1 - max = 0 := by omega
      simp only [e1, List.drop_zero, Nat.sub_zero, List.append_assoc, List.singleton_append]
      congr 1
      omega
    · have e2 : items.length + 1 - (items.length + 1 - max) + rest.length - max
          = rest.length := by omega
      rw [e2]
      have e3 : items.length + (rest.length + 1) - max
          = (items.length + 1 - max) + rest.length := by omega
      rw [e3, ← List.drop_drop]
      have e4 : items ++ EncodedFrame.new i.data i.length (wrapInt64 (i.now - start)) ::
            List.map (PushInput.frame start) rest
          = (items ++ [EncodedFrame.new i.data i.length (wrapInt64 (i.now - start))]) ++
            List.map (PushInput.frame start) rest := by
        simp
      have e5 : items.length + 1 - max
          ≤ (items ++ [EncodedFrame.new i.data i.length (wrapInt64 (i.now - start))]).length := by
        simp
      rw [e4, List.drop_append_of_le_length e5]

theorem popFrames_eq (n : Nat) (q : MediaFrameQueue) (hn : n ≤ q.size) :
    popFrames n q =
      some (q.entries.take n, { q with m_queue := ⟨q.entries.drop n⟩ }) := by
  induction n generalizing q with
  | zero => simp [popFrames, entries]
  | succ n ih =>
    obtain ⟨⟨items⟩, max, start⟩ := q
    cases items with
    | nil => simp [size, SharedQueue.size] at hn
    | cons x xs =>
      have hxs : n ≤ (MediaFrameQueue.mk ⟨xs⟩ max start).size := by
        simp only [size, SharedQueue.size, List.length_cons] at hn ⊢
        omega
      simp [popFrames, popFrame, SharedQueue.pop, ih _ hxs, entries]

theorem pushFrame_size_le (q : MediaFrameQueue) (data : List Byte) (length : UInt16Val)
    (now : Int) :
    ∃ q1, pushFrame q data length now = some q1 ∧ q1.size ≤ q1.m_max ∧
      q1.m_max = q.m_max ∧ q1.m_startTimeOffset = q.m_startTimeOffset := by
  refine ⟨_, pushFrame_eq q data length now, ?_, rfl, rfl⟩
  simp only [size, SharedQueue.size, entries, List.length_drop, List.length_append,
    List.length_singleton]
  omega

theorem popFrame_size (q : MediaFrameQueue) (frame : EncodedFrame) (q1 : MediaFrameQueue)
    (h : popFrame q = some (frame, q1)) :
    q.entries = frame :: q1.entries ∧ q1.size + 1 = q.size ∧ q1.m_max = q.m_max ∧
      q1.m_startTimeOffset = q.m_startTimeOffset := by
  obtain ⟨⟨items⟩, max, start⟩ := q
  cases items with
  | nil => simp [popFrame, SharedQueue.pop] at h
  | cons x xs =>
    simp only [popFrame, SharedQueue.pop, Option.some.injEq, Prod.mk.injEq] at h
    obtain ⟨rfl, rfl⟩ := h
    simp [entries, size, SharedQueue.size]

theorem applyOps_size_le (ops : List QueueOp) (q q1 : MediaFrameQueue)
    (hq : q.size ≤ q.m_max) (h : applyOps q ops = some q1) :
    q1.size ≤ q1.m_max ∧ q1.m_max = q.m_max := by
  induction ops generalizing q with
  | nil =>
    simp only [applyOps, Option.some.injEq] at h
    subst h
    exact ⟨hq, rfl⟩
  | cons op rest ih =>
    rw [applyOps] at h
    cases op with
    | push i =>
      obtain ⟨q2, h2, hle, hmax, -⟩ := pushFrame_size_le q i.data i.length i.now
      simp only [applyOp, h2] at h
      obtain ⟨h3, h4⟩ := ih q2 hle h
      exact ⟨h3, h4.trans hmax⟩
    | pop =>
      cases hp : popFrame q with
      | none => simp [applyOp, hp] at h
      | some r =>
        obtain ⟨frame, q2⟩ := r
        obtain ⟨-, hsz, hmax, -⟩ := popFrame_size q frame q2 hp
        simp only [applyOp, hp, Option.map_some'] at h
        obtain ⟨h3, h4⟩ := ih q2 (by omega) h
        exact ⟨h3, h4.trans hmax⟩

theorem pushFramesTrace_spec (inputs : List PushInput) (q : MediaFrameQueue) :
    ∃ dropped q1, pushFramesTrace q inputs = some (dropped, q1) ∧
      pushFrames q inputs = some q1 ∧
      dropped ++ q1.entries = q.entries ++ inputs.map (PushInput.frame q.m_startTimeOffset) ∧
      q1.m_max = q.m_max ∧ q1.m_startTimeOffset = q.m_startTimeOffset := by
  induction inputs generalizing q with
  | nil => exact ⟨[], q, rfl, rfl, by simp, rfl, rfl⟩
  | cons i rest ih =>
    obtain ⟨d2, q2, h1, h2, h3, h4, h5⟩ := ih
      { q with m_queue :=
          ⟨(q.entries ++ [EncodedFrame.new i.data i.length (wrapInt64 (i.now - q.m_startTimeOffset))]).drop
            (q.size + 1 - q.m_max)⟩ }
    refine ⟨(q.entries ++ [EncodedFrame.new i.data i.length (wrapInt64 (i.now - q.m_startTimeOffset))]).take
      (q.size + 1 - q.m_max) ++ d2, q2, ?_, ?_, ?_, h4, h5⟩
    · rw [pushFramesTrace, pushFrameTrace_eq]
      simp only [h1]
    · rw [pushFrames, pushFrame_eq]
      simp only [h2]
    · rw [List.append_assoc, h3]
      simp only [entries, List.map_cons, PushInput.frame]
      rw [← List.append_assoc, List.take_append_drop]
      simp

end MediaFrameQueue

namespace MediaMuxer

theorem resetEventRegistry_accepted (m : MediaMuxer) (w : World)
    (newRegistry : Option RegistryPtr)
    (hnull : newRegistry ≠ none) (hother : newRegistry ≠ m.m_callback) :
    m.resetEventRegistry w newRegistry =
      (true,
        { m_status := m.m_status, m_callback := newRegistry, m_callbackCalled := false },
        { notified := w.notified, deleted := w.deleted ++ m.m_callback.toList }) := by
  obtain ⟨status, cb, called⟩ := m
  obtain ⟨notified, deleted⟩ := w
  cases newRegistry with
  | none => exact absurd rfl hnull
  | some n =>
    have hne : (cb == some n) = false := by
      simpa using fun h : cb = some n => hother h.symm
    cases cb with
    | none => simp [resetEventRegistry]
    | some old => simp [resetEventRegistry, hne]

end MediaMuxer

namespace Shared

theorem sum_map_set {α : Type} (f : α → Nat) (l : List α) (i : Nat) (a b : α)
    (h : l[i]? = some a) :
    ((l.set i b).map f).sum + f a = (l.map f).sum + f b := by
  induction l generalizing i with
  | nil => simp at h
  | cons x xs ih =>
    cases i with
    | zero =>
      simp only [List.getElem?_cons_zero, Option.some.injEq] at h
      subst h
      simp only [List.set_cons_zero, List.map_cons, List.sum_cons]
      omega
    | succ i =>
      simp only [List.getElem?_cons_succ] at h
      have := ih i h
      simp only [List.set_cons_succ, List.map_cons, List.sum_cons]
      omega

theorem map_set_same {α β : Type} (f : α → β) (l : List α) (i : Nat) (a b : α)
    (h : l[i]? = some a) (hf : f b = f a) :
    (l.set i b).map f = l.map f := by
  induction l generalizing i with
  | nil => simp
  | cons x xs ih =>
    cases i with
    | zero =>
      simp only [List.getElem?_cons_zero, Option.some.injEq] at h
      subst h
      simp [hf]
    | succ i =>
      simp only [List.getElem?_cons_succ] at h
      simp [ih i h]

theorem set_same {α : Type} (l : List α) (i : Nat) (a : α) (h : l[i]? = some a) :
    l.set i a = l := by
  induction l generalizing i with
  | nil => simp
  | cons x xs ih =>
    cases i with
    | zero =>
      simp only [List.getElem?_cons_zero, Option.some.injEq] at h
      subst h
      simp
    | succ i =>
      simp only [List.getElem?_cons_succ] at h
      simp [ih i h]

theorem pending_mk (data : String) (pc : CallbackPc) :
    pending ⟨data, pc⟩ = if pc = .returned then 0 else 1 := rfl

theorem inv_start (m : MediaMuxer) (w : World) (registry : RegistryPtr)
    (datas : List String)
    (hcb : m.m_callback = some registry) (hfired : m.m_callbackCalled = false) :
    Inv w.notified registry datas (start m w datas) := by
  refine ⟨hcb, ?_, [], by simp [start], by simp, ?_, ?_, ?_⟩
  · simp [start, Function.comp_def]
  · have hsum : ((start m w datas).calls.map pending).sum = datas.length := by
      simp only [start, List.map_map]
      induction datas with
      | nil => rfl
      | cons d ds ih =>
        simp only [List.map_cons, List.sum_cons, List.length_cons, ih]
        simp [pending, Nat.add_comm]
    simp [hsum]
  · intro _ j c hj
    simp only [start, List.getElem?_map] at hj
    cases hd : datas[j]? with
    | none => simp [hd] at hj
    | some d =>
      simp only [hd, Option.map_some', Option.some.injEq] at hj
      subst hj
      exact Or.inl rfl
  · intro h
    simp only [start] at h
    rw [hfired] at h
    cases h

theorem inv_step (notified0 : List (RegistryPtr × String)) (registry : RegistryPtr)
    (datas : List String) (s : Shared) (i : Nat)
    (h : Inv notified0 registry datas s) :
    Inv notified0 registry datas (step s i) := by
  obtain ⟨mux, world, calls⟩ := s
  obtain ⟨hcb, hdata, extra, hnot, hfrom, hcount, hlow, hhigh⟩ := h
  simp only at hcb hdata hnot hcount hlow hhigh
  cases hi : calls[i]? with
  | none =>
    have : step ⟨mux, world, calls⟩ i = ⟨mux, world, calls⟩ := by
      simp [step, hi]
    rw [this]
    exact ⟨hcb, hdata, extra, hnot, hfrom, hcount, hlow, hhigh⟩
  | some c =>
    obtain ⟨data, pc⟩ := c
    have hilt : i < calls.length := by
      rw [List.getElem?_eq_some] at hi
      exact hi.1
    cases pc with
    | atTest =>
      cases hcalled : mux.m_callbackCalled with
      | false =>
        have hs : step ⟨mux, world, calls⟩ i
            = ⟨mux, world, calls.set i ⟨data, .atSet⟩⟩ := by
          simp [step, hi, stepCall, hcb, hcalled]
        rw [hs]
        refine ⟨hcb, ?_, extra, hnot, hfrom, ?_, ?_, ?_⟩
        · simpa using (map_set_same (fun c : CallbackCall => c.data) calls i _ ⟨data, .atSet⟩ hi rfl).trans hdata
        · have := sum_map_set pending calls i _ ⟨data, .atSet⟩ hi
          have e1 : pending (⟨data, .atTest⟩ : CallbackCall) = 1 := rfl
          have e2 : pending (⟨data, .atSet⟩ : CallbackCall) = 1 := rfl
          rw [e1, e2] at this
          simp only
          omega
        · intro _ j c hj
          simp only at hj
          by_cases hij : i = j
          · subst hij
            rw [List.getElem?_set_self hilt, Option.some.injEq] at hj
            subst hj
            exact Or.inr rfl
          · rw [List.getElem?_set_ne hij] at hj
            exact hlow hcalled j c hj
        · intro hc
          simp only at hc
          rw [hcalled] at hc
          cases hc
      | true =>
        have hs : step ⟨mux, world, calls⟩ i
            = ⟨mux, world, calls.set i ⟨data, .returned⟩⟩ := by
          simp [step, hi, stepCall, hcb, hcalled]
        rw [hs]
        refine ⟨hcb, ?_, extra, hnot, hfrom, ?_, ?_, ?_⟩
        · simpa using
            (map_set_same (fun c : CallbackCall => c.data) calls i _ ⟨data, .returned⟩ hi rfl).trans hdata
        · have := sum_map_set pending calls i _ ⟨data, .returned⟩ hi
          have e1 : pending (⟨data, .atTest⟩ : CallbackCall) = 1 := rfl
          have e2 : pending (⟨data, .returned⟩ : CallbackCall) = 0 := rfl
          rw [e1, e2] at this
          simp only
          omega
        · intro hc
          simp only at hc
          rw [hcalled] at hc
          cases hc
        · intro _
          rcases hhigh hcalled with ⟨j, c, hj, hpc⟩ | h1
          · left
            refine ⟨j, c, ?_, hpc⟩
            simp only
            have hne : i ≠ j := by
              intro hij
              subst hij
              rw [hi] at hj
              simp only [Option.some.injEq] at hj
              subst hj
              cases hpc
            rw [List.getElem?_set_ne hne]
            exact hj
          · exact Or.inr h1
    | atSet =>
      have hs : step ⟨mux, world, calls⟩ i
          = ⟨{ mux with m_callbackCalled := true }, world,
              calls.set i ⟨data, .atNotify⟩⟩ := by
        simp [step, hi, stepCall]
      rw [hs]
      refine ⟨hcb, ?_, extra, hnot, hfrom, ?_, ?_, ?_⟩
      · simpa using
          (map_set_same (fun c : CallbackCall => c.data) calls i _ ⟨data, .atNotify⟩ hi rfl).trans hdata
      · have := sum_map_set pending calls i _ ⟨data, .atNotify⟩ hi
        have e1 : pending (⟨data, .atSet⟩ : CallbackCall) = 1 := rfl
        have e2 : pending (⟨data, .atNotify⟩ : CallbackCall) = 1 := rfl
        rw [e1, e2] at this
        simp only
        omega
      · intro hc
        cases hc
      · intro _
        left
        refine ⟨i, ⟨data, .atNotify⟩, ?_, rfl⟩
        simp only
        rw [List.getElem?_set_self hilt]
    | atNotify =>
      have hs : step ⟨mux, world, calls⟩ i
          = ⟨mux, { world with notified := world.notified ++ [(registry, data)] },
              calls.set i ⟨data, .returned⟩⟩ := by
        simp [step, hi, stepCall, hcb]
      rw [hs]
      have hmem : data ∈ datas := by
        rw [← hdata, List.mem_map]
        exact ⟨⟨data, .atNotify⟩, List.mem_iff_getElem?.mpr ⟨i, hi⟩, rfl⟩
      refine ⟨hcb, ?_, extra ++ [(registry, data)], ?_, ?_, ?_, ?_, ?_⟩
      · simpa using
          (map_set_same (fun c : CallbackCall => c.data) calls i _ ⟨data, .returned⟩ hi rfl).trans hdata
      · simp [hnot]
      · intro x hx
        rw [List.mem_append] at hx
        rcases hx with hx | hx
        · exact hfrom x hx
        · simp only [List.mem_singleton] at hx
          subst hx
          exact ⟨rfl, hmem⟩
      · have := sum_map_set pending calls i _ ⟨data, .returned⟩ hi
        have e1 : pending (⟨data, .atNotify⟩ : CallbackCall) = 1 := rfl
        have e2 : pending (⟨data, .returned⟩ : CallbackCall) = 0 := rfl
        rw [e1, e2] at this
        simp only
        simp only [List.length_append, List.length_singleton]
        omega
      · intro hc
        simp only at hc
        rcases hlow hc i _ hi with h1 | h1
        · cases h1
        · cases h1
      · intro _
        right
        simp
    | returned =>
      have hs : step ⟨mux, world, calls⟩ i = ⟨mux, world, calls⟩ := by
        simp [step, hi, stepCall, set_same calls i _ hi]
      rw [hs]
      exact ⟨hcb, hdata, extra, hnot, hfrom, hcount, hlow, hhigh⟩

theorem inv_run (notified0 : List (RegistryPtr × String)) (registry : RegistryPtr)
    (datas : List String) (schedule : List Nat) (s : Shared)
    (h : Inv notified0 registry datas s) :
    Inv notified0 registry datas (run s schedule) := by
  induction schedule generalizing s with
  | nil => exact h
  | cons i rest ih => exact ih _ (inv_step notified0 registry datas s i h)

end Shared

namespace MediaMuxer

theorem callbacks_fired (m : MediaMuxer) (w : World) (datas : List String)
    (h : m.m_callback = none ∨ m.m_callbackCalled = true) :
    m.callbacks w datas = (m, w) := by
  induction datas with
  | nil => rfl
  | cons d ds ih =>
    have hcall : m.callback w d = (m, w) := by
      cases hcb : m.m_callback with
      | none => simp [callback, hcb]
      | some registry =>
        rcases h with h | h
        · rw [hcb] at h
          cases h
        · simp [callback, hcb, h]
    rw [callbacks]
    simp only [hcall]
    exact ih

theorem callbacks_fresh (m : MediaMuxer) (w : World) (registry : RegistryPtr)
    (data : String) (rest : List String)
    (hcb : m.m_callback = some registry) (hfired : m.m_callbackCalled = false) :
    m.callbacks w (data :: rest) =
      ({ m with m_callbackCalled := true },
        { w with notified := w.notified ++ [(registry, data)] }) := by
  have hfirst : m.callback w data =
      ({ m with m_callbackCalled := true },
        { w with notified := w.notified ++ [(registry, data)] }) := by
    simp [callback, hcb, hfired]
  rw [callbacks]
  simp only [hfirst]
  exact callbacks_fired _ _ rest (Or.inr rfl)

end MediaMuxer

namespace Shared

theorem run_append (s : Shared) (a b : List Nat) :
    run s (a ++ b) = run (run s a) b := by
  induction a generalizing s with
  | nil => rfl
  | cons i rest ih => exact ih (step s i)

theorem get_mid {α : Type} (pre : List α) (c : α) (rest : List α) :
    (pre ++ c :: rest)[pre.length]? = some c := by
  induction pre with
  | nil => simp
  | cons x xs ih => simpa using ih

theorem set_mid {α : Type} (pre : List α) (c c1 : α) (rest : List α) :
    (pre ++ c :: rest).set pre.length c1 = pre ++ c1 :: rest := by
  induction pre with
  | nil => rfl
  | cons x xs _ => simp

theorem step_mid (m : MediaMuxer) (w : World) (pre : List CallbackCall) (c : CallbackCall)
    (rest : List CallbackCall) :
    step ⟨m, w, pre ++ c :: rest⟩ pre.length =
      ⟨(stepCall m w c).1, (stepCall m w c).2.1, pre ++ (stepCall m w c).2.2 :: rest⟩ := by
  simp only [step, get_mid, set_mid]

theorem run_call_mid (m : MediaMuxer) (w : World) (pre : List CallbackCall) (d : String)
    (rest : List CallbackCall) :
    run ⟨m, w, pre ++ ⟨d, .atTest⟩ :: rest⟩ [pre.length, pre.length, pre.length] =
      ⟨(m.callback w d).1, (m.callback w d).2, pre ++ ⟨d, .returned⟩ :: rest⟩ := by
  obtain ⟨status, cb, called⟩ := m
  simp only [run, step_mid]
  cases cb with
  | none => simp [stepCall, MediaMuxer.callback]
  | some registry =>
    cases called with
    | false => simp [stepCall, MediaMuxer.callback]
    | true => simp [stepCall, MediaMuxer.callback]

theorem run_sequentialFrom (datas : List String) (m : MediaMuxer) (w : World)
    (pre : List CallbackCall) :
    run ⟨m, w, pre ++ datas.map (fun d => { data := d, pc := .atTest })⟩
        (sequentialFrom pre.length datas.length) =
      ⟨(m.callbacks w datas).1, (m.callbacks w datas).2,
        pre ++ datas.map (fun d => { data := d, pc := .returned })⟩ := by
  induction datas generalizing m w pre with
  | nil => simp [sequentialFrom, run, MediaMuxer.callbacks]
  | cons d ds ih =>
    have hsched : sequentialFrom pre.length (d :: ds).length =
        [pre.length, pre.length, pre.length] ++ sequentialFrom (pre.length + 1) ds.length := by
      simp [sequentialFrom, List.range'_succ]
    rw [hsched, run_append, List.map_cons, run_call_mid]
    have hpre : pre ++ (⟨d, .returned⟩ : CallbackCall) ::
          ds.map (fun d => ({ data := d, pc := .atTest } : CallbackCall))
        = (pre ++ [⟨d, .returned⟩]) ++
          ds.map (fun d => ({ data := d, pc := .atTest } : CallbackCall)) := by
      simp
    have hlen : pre.length + 1 = (pre ++ [(⟨d, .returned⟩ : CallbackCall)]).length := by
      simp
    rw [hpre, hlen, ih]
    simp [MediaMuxer.callbacks]

end Shared

namespace MediaMuxer

theorem callback_cases (m : MediaMuxer) (w : World) (data : String) :
    m.callback w data = (m, w) ∨
    (m.m_callbackCalled = false ∧ ∃ registry, m.m_callback = some registry ∧
      m.callback w data =
        ({ m with m_callbackCalled := true },
          { w with notified := w.notified ++ [(registry, data)] })) := by
  cases hcb : m.m_callback with
  | none => simp [callback, hcb]
  | some registry =>
    cases hfired : m.m_callbackCalled with
    | true => simp [callback, hcb, hfired]
    | false => simp [callback, hcb, hfired]

theorem resetEventRegistry_cases (m : MediaMuxer) (w : World)
    (newRegistry : Option RegistryPtr) :
    m.resetEventRegistry w newRegistry = (false, m, w) ∨
    m.resetEventRegistry w newRegistry =
      (true,
        { m_status := m.m_status, m_callback := newRegistry, m_callbackCalled := false },
        { notified := w.notified, deleted := w.deleted ++ m.m_callback.toList }) := by
  by_cases h : newRegistry = none ∨ newRegistry = m.m_callback
  · left
    rcases h with h | h
    · simp [resetEventRegistry, h]
    · simp [resetEventRegistry, h]
  · right
    have h1 : newRegistry ≠ none := fun e => h (Or.inl e)
    have h2 : newRegistry ≠ m.m_callback := fun e => h (Or.inr e)
    exact resetEventRegistry_accepted m w newRegistry h1 h2

theorem runOps_append (a b : List MuxerOp) (m : MediaMuxer) (w : World) :
    runOps m w (a ++ b) =
      ((runOps (runOps m w a).1 (runOps m w a).2.1 b).1,
        (runOps (runOps m w a).1 (runOps m w a).2.1 b).2.1,
        (runOps m w a).2.2 + (runOps (runOps m w a).1 (runOps m w a).2.1 b).2.2) := by
  induction a generalizing m w with
  | nil => simp [runOps]
  | cons op rest ih =>
    cases op with
    | reset newRegistry =>
      rw [List.cons_append]
      simp only [runOps]
      rw [ih]
      refine Prod.ext rfl (Prod.ext rfl ?_)
      simp only
      omega
    | call data =>
      rw [List.cons_append]
      simp only [runOps]
      rw [ih]

theorem runOps_status (ops : List MuxerOp) (m : MediaMuxer) (w : World) :
    (runOps m w ops).1.m_status = m.m_status := by
  induction ops generalizing m w with
  | nil => rfl
  | cons op rest ih =>
    cases op with
    | reset newRegistry =>
      simp only [runOps, ih]
      rcases resetEventRegistry_cases m w newRegistry with h | h <;> rw [h]
    | call data =>
      simp only [runOps, ih]
      rcases callback_cases m w data with h | ⟨-, registry, -, h⟩ <;> rw [h]

theorem runOps_deliveries (ops : List MuxerOp) (m : MediaMuxer) (w : World) :
    ∃ extra, (runOps m w ops).2.1.notified = w.notified ++ extra ∧
      extra.length + (if (runOps m w ops).1.m_callbackCalled then 0 else 1)
        ≤ (if m.m_callbackCalled then 0 else 1) + (runOps m w ops).2.2 := by
  induction ops generalizing m w with
  | nil => exact ⟨[], by simp [runOps], by simp [runOps]⟩
  | cons op rest ih =>
    cases op with
    | reset newRegistry =>
      rcases resetEventRegistry_cases m w newRegistry with h | h
      · obtain ⟨extra, h1, h2⟩ := ih m w
        refine ⟨extra, ?_, ?_⟩
        · simp only [runOps, h]
          exact h1
        · simp only [runOps, h]
          simpa using h2
      · obtain ⟨extra, h1, h2⟩ := ih
          { m_status := m.m_status, m_callback := newRegistry, m_callbackCalled := false }
          { notified := w.notified, deleted := w.deleted ++ m.m_callback.toList }
        refine ⟨extra, ?_, ?_⟩
        · simp only [runOps, h]
          exact h1
        · simp only [runOps, h]
          simp only [Bool.false_eq_true, if_false, if_true] at h2 ⊢
          omega
    | call data =>
      rcases callback_cases m w data with h | ⟨hfired, registry, -, h⟩
      · obtain ⟨extra, h1, h2⟩ := ih m w
        refine ⟨extra, ?_, ?_⟩
        · simp only [runOps, h]
          exact h1
        · simp only [runOps, h]
          exact h2
      · obtain ⟨extra, h1, h2⟩ := ih { m with m_callbackCalled := true }
          { w with notified := w.notified ++ [(registry, data)] }
        refine ⟨(registry, data) :: extra, ?_, ?_⟩
        · simp only [runOps, h]
          rw [h1]
          simp
        · simp only [runOps, h]
          simp only [hfired, Bool.false_eq_true, if_false, if_true, List.length_cons] at h2 ⊢
          omega

end MediaMuxer

theorem pushedFrames_append (start : Int) (a b : List QueueOp) :
    pushedFrames start (a ++ b) = pushedFrames start a ++ pushedFrames start b := by
  induction a with
  | nil => rfl
  | cons op rest ih =>
    cases op with
    | push i => simp [pushedFrames, ih]
    | pop => simp [pushedFrames, ih]

theorem returnedFrames_indices (events : List QueueEvent) :
    ∃ idx : List Nat, idx.Pairwise (fun a b => a < b) ∧
      (∀ k ∈ idx, k < events.length) ∧
      idx.length = (returnedFrames events).length ∧
      ∀ tail : List EncodedFrame,
        returnedFrames events
          = idx.filterMap (fun k => (events.map QueueEvent.frame ++ tail)[k]?) := by
  induction events with
  | nil => exact ⟨[], List.Pairwise.nil, by simp, rfl, by simp [returnedFrames]⟩
  | cons e es ih =>
    obtain ⟨idx, hpair, hlt, hlen, hget⟩ := ih
    have hshift : (idx.map (fun k => k + 1)).Pairwise (fun a b => a < b) := by
      rw [List.pairwise_map]
      exact hpair.imp (fun h => by omega)
    have hget2 : ∀ tail : List EncodedFrame,
        (idx.map (fun k => k + 1)).filterMap
            (fun k => ((e :: es).map QueueEvent.frame ++ tail)[k]?)
          = returnedFrames es := by
      intro tail
      rw [hget tail, List.filterMap_map]
      apply List.filterMap_congr
      intro k _
      simp
    cases e with
    | returned f =>
      refine ⟨0 :: idx.map (fun k => k + 1), ?_, ?_, by simp [returnedFrames, hlen], ?_⟩
      · rw [List.pairwise_cons]
        refine ⟨?_, hshift⟩
        intro b hb
        rw [List.mem_map] at hb
        obtain ⟨k, -, rfl⟩ := hb
        omega
      · intro k hk
        rw [List.mem_cons] at hk
        rcases hk with rfl | hk
        · simp
        · rw [List.mem_map] at hk
          obtain ⟨j, hj, rfl⟩ := hk
          have := hlt j hj
          simp only [List.length_cons]
          omega
      · intro tail
        rw [List.filterMap_cons, hget2 tail]
        simp [returnedFrames, QueueEvent.frame]
    | evicted f =>
      refine ⟨idx.map (fun k => k + 1), hshift, ?_, by simp [returnedFrames, hlen], ?_⟩
      · intro k hk
        rw [List.mem_map] at hk
        obtain ⟨j, hj, rfl⟩ := hk
        have := hlt j hj
        simp only [List.length_cons]
        omega
      · intro tail
        rw [hget2 tail]
        simp [returnedFrames]

namespace MediaFrameQueue

theorem applyOpsTrace_spec (ops : List QueueOp) (q : MediaFrameQueue)
    (events : List QueueEvent) (q1 : MediaFrameQueue)
    (h : applyOpsTrace q ops = some (events, q1)) :
    q.entries ++ pushedFrames q.m_startTimeOffset ops
        = events.map QueueEvent.frame ++ q1.entries ∧
      q1.m_max = q.m_max ∧ q1.m_startTimeOffset = q.m_startTimeOffset ∧
      applyOps q ops = some q1 := by
  induction ops generalizing q events with
  | nil =>
    simp only [applyOpsTrace, Option.some.injEq, Prod.mk.injEq] at h
    obtain ⟨rfl, rfl⟩ := h
    exact ⟨by simp [pushedFrames], rfl, rfl, rfl⟩
  | cons op rest ih =>
    cases op with
    | push i =>
      simp only [applyOpsTrace, pushFrameTrace_eq] at h
      split at h
      · cases h
      · rename_i ev2 q2 hrest
        simp only [Option.some.injEq, Prod.mk.injEq] at h
        obtain ⟨rfl, rfl⟩ := h
        obtain ⟨h1, h2, h3, h4⟩ := ih _ _ hrest
        refine ⟨?_, h2, h3, ?_⟩
        · simp only [entries, pushedFrames, PushInput.frame, List.map_append, List.map_map,
            List.append_assoc] at h1 ⊢
          rw [← h1]
          have hmap : List.map (QueueEvent.frame ∘ QueueEvent.evicted)
              (List.take (q.size + 1 - q.m_max)
                (q.m_queue.items ++
                  [EncodedFrame.new i.data i.length (wrapInt64 (i.now - q.m_startTimeOffset))]))
              = List.take (q.size + 1 - q.m_max)
                (q.m_queue.items ++
                  [EncodedFrame.new i.data i.length (wrapInt64 (i.now - q.m_startTimeOffset))]) := by
            have hid : (QueueEvent.frame ∘ QueueEvent.evicted) = id := funext fun _ => rfl
            rw [hid, List.map_id]
          rw [hmap, ← List.append_assoc, List.take_append_drop]
          simp
        · simp only [applyOps, applyOp, pushFrame_eq]
          exact h4
    | pop =>
      simp only [applyOpsTrace] at h
      cases hp : popFrame q with
      | none => simp [hp] at h
      | some r =>
        obtain ⟨frame, q2⟩ := r
        simp only [hp] at h
        split at h
        · cases h
        · rename_i ev2 q3 hrest
          simp only [Option.some.injEq, Prod.mk.injEq] at h
          obtain ⟨rfl, rfl⟩ := h
          obtain ⟨h1, h2, h3, h4⟩ := ih _ _ hrest
          obtain ⟨he, -, hmax, hstart⟩ := popFrame_size q frame q2 hp
          refine ⟨?_, h2.trans hmax, h3.trans hstart, ?_⟩
          · rw [hstart] at h1
            simp only [pushedFrames, List.map_cons, QueueEvent.frame, List.cons_append]
            rw [← h1, he]
            rfl
          · simp only [applyOps, applyOp, hp, Option.map_some']
            exact h4

theorem applyOpsTrace_append (a b : List QueueOp) (q : MediaFrameQueue)
    (events : List QueueEvent) (q2 : MediaFrameQueue)
    (h : applyOpsTrace q (a ++ b) = some (events, q2)) :
    ∃ ev1 qm ev2, applyOpsTrace q a = some (ev1, qm) ∧
      applyOpsTrace qm b = some (ev2, q2) ∧ events = ev1 ++ ev2 := by
  induction a generalizing q events with
  | nil => exact ⟨[], q, events, rfl, h, rfl⟩
  | cons op rest ih =>
    rw [List.cons_append] at h
    cases op with
    | push i =>
      simp only [applyOpsTrace, pushFrameTrace_eq] at h ⊢
      split at h
      · cases h
      · rename_i ev3 q3 hrest
        simp only [Option.some.injEq, Prod.mk.injEq] at h
        obtain ⟨rfl, rfl⟩ := h
        obtain ⟨ev1, qm, ev2, h1, h2, rfl⟩ := ih _ _ hrest
        refine ⟨List.map QueueEvent.evicted
            (List.take (q.size + 1 - q.m_max)
              (q.entries ++ [EncodedFrame.new i.data i.length (wrapInt64 (i.now - q.m_startTimeOffset))]))
            ++ ev1, qm, ev2, ?_, h2, ?_⟩
        · simp only [h1]
        · simp
    | pop =>
      simp only [applyOpsTrace] at h ⊢
      cases hp : popFrame q with
      | none => simp [hp] at h
      | some r =>
        obtain ⟨frame, q3⟩ := r
        simp only [hp] at h ⊢
        split at h
        · cases h
        · rename_i ev3 q4 hrest
          simp only [Option.some.injEq, Prod.mk.injEq] at h
          obtain ⟨rfl, rfl⟩ := h
          obtain ⟨ev1, qm, ev2, h1, h2, rfl⟩ := ih _ _ hrest
          refine ⟨QueueEvent.returned frame :: ev1, qm, ev2, ?_, h2, ?_⟩
          · simp only [h1]
          · simp

end MediaFrameQueue

namespace MediaFrameQueue

theorem returnedFrames_append (a b : List QueueEvent) :
    returnedFrames (a ++ b) = returnedFrames a ++ returnedFrames b := by
  induction a with
  | nil => rfl
  | cons e rest ih =>
    cases e with
    | returned f => simp [returnedFrames, ih]
    | evicted f => simp [returnedFrames, ih]

theorem applyOpsTrace_none (ops : List QueueOp) (q : MediaFrameQueue)
    (h : applyOpsTrace q ops = none) :
    ∃ ops1 ops2 ev qm, ops = ops1 ++ QueueOp.pop :: ops2 ∧
      applyOpsTrace q ops1 = some (ev, qm) ∧ qm.entries = [] := by
  induction ops generalizing q with
  | nil => simp [applyOpsTrace] at h
  | cons op rest ih =>
    cases op with
    | push i =>
      simp only [applyOpsTrace, pushFrameTrace_eq] at h
      split at h
      · rename_i hrest
        obtain ⟨ops1, ops2, ev, qm, h1, h2, h3⟩ := ih _ hrest
        refine ⟨QueueOp.push i :: ops1, ops2,
          List.map QueueEvent.evicted
            (List.take (q.size + 1 - q.m_max)
              (q.entries ++ [EncodedFrame.new i.data i.length (wrapInt64 (i.now - q.m_startTimeOffset))]))
            ++ ev, qm, by rw [h1]; rfl, ?_, h3⟩
        simp only [applyOpsTrace, pushFrameTrace_eq, h2]
      · cases h
    | pop =>
      cases hp : popFrame q with
      | none =>
        refine ⟨[], rest, [], q, rfl, rfl, ?_⟩
        obtain ⟨⟨items⟩, max, start⟩ := q
        cases items with
        | nil => rfl
        | cons x xs => simp [popFrame, SharedQueue.pop] at hp
      | some r =>
        obtain ⟨frame, q2⟩ := r
        simp only [applyOpsTrace, hp] at h
        split at h
        · rename_i hrest
          obtain ⟨ops1, ops2, ev, qm, h1, h2, h3⟩ := ih _ hrest
          refine ⟨QueueOp.pop :: ops1, ops2, QueueEvent.returned frame :: ev, qm,
            by rw [h1]; rfl, ?_, h3⟩
          simp only [applyOpsTrace, hp, h2]
        · cases h

end MediaFrameQueue

theorem wrapInt64_eq_self (x : Int) (hlo : -(2 ^ 63) ≤ x) (hhi : x < 2 ^ 63) :
    wrapInt64 x = x := by
  unfold wrapInt64
  rw [Int.emod_eq_of_lt (by omega) (by omega)]
  omega

theorem currentTimeMs_exact (t : Timeval) (hsec : 0 ≤ t.tv_sec) (husec : 0 ≤ t.tv_usec)
    (hfit : t.tv_sec * 1000 + t.tv_usec / 1000 < 2 ^ 63) :
    currentTimeMs t = t.tv_sec * 1000 + t.tv_usec / 1000 := by
  have hq : 0 ≤ t.tv_usec / 1000 := Int.ediv_nonneg husec (by omega)
  unfold currentTimeMs
  rw [Int.tdiv_eq_ediv husec (by omega),
    wrapInt64_eq_self (t.tv_sec * 1000) (by omega) (by omega),
    wrapInt64_eq_self _ (by omega) hfit]

namespace MediaFrameQueue

theorem returnedFrames_evicted (l : List EncodedFrame) :
    returnedFrames (l.map QueueEvent.evicted) = [] := by
  induction l with
  | nil => rfl
  | cons x xs ih => simpa [returnedFrames] using ih

theorem capacityZero_trace (ops : List QueueOp) (q : MediaFrameQueue)
    (events : List QueueEvent) (q1 : MediaFrameQueue)
    (hcap : q.m_max = 0) (hempty : q.entries = [])
    (h : applyOpsTrace q ops = some (events, q1)) :
    returnedFrames events = [] ∧ q1.entries = [] ∧ QueueOp.pop ∉ ops := by
  induction ops generalizing q events with
  | nil =>
    simp only [applyOpsTrace, Option.some.injEq, Prod.mk.injEq] at h
    obtain ⟨rfl, rfl⟩ := h
    exact ⟨rfl, hempty, by simp⟩
  | cons op rest ih =>
    cases op with
    | push i =>
      simp only [applyOpsTrace, pushFrameTrace_eq] at h
      split at h
      · cases h
      · rename_i ev2 q2 hrest
        simp only [Option.some.injEq, Prod.mk.injEq] at h
        obtain ⟨rfl, rfl⟩ := h
        have hq2 : (MediaFrameQueue.mk
            ⟨List.drop (q.size + 1 - q.m_max)
              (q.entries ++ [EncodedFrame.new i.data i.length (wrapInt64 (i.now - q.m_startTimeOffset))])⟩
            q.m_max q.m_startTimeOffset).entries = [] := by
          simp only [entries, size, SharedQueue.size] at hempty ⊢
          rw [hempty, hcap]
          rfl
        obtain ⟨h1, h2, h3⟩ := ih
          (MediaFrameQueue.mk
            ⟨List.drop (q.size + 1 - q.m_max)
              (q.entries ++ [EncodedFrame.new i.data i.length (wrapInt64 (i.now - q.m_startTimeOffset))])⟩
            q.m_max q.m_startTimeOffset) ev2 hcap hq2 hrest
        refine ⟨?_, h2, by simpa using h3⟩
        rw [returnedFrames_append, h1, List.append_nil, returnedFrames_evicted]
    | pop =>
      obtain ⟨⟨items⟩, max, start⟩ := q
      simp only [entries] at hempty
      subst hempty
      simp [applyOpsTrace, popFrame, SharedQueue.pop] at h

end MediaFrameQueue

/-! ## The claims -/

/-- C1: for every capacity `cap` and every sequence of more than `cap` calls of
`pushFrame` on a freshly constructed `MediaFrameQueue` of capacity `cap`, with
no pop in between, all the calls return and the queue then holds exactly the
`cap` most recently pushed frames, in push order. -/
theorem C1_pushes_keep_most_recent (cap : Nat) (start : Int) (inputs : List PushInput)
    (hN : cap < inputs.length) :
    ∃ q, MediaFrameQueue.pushFrames (MediaFrameQueue.new cap start) inputs = some q ∧
      q.entries = (inputs.map (PushInput.frame start)).drop (inputs.length - cap) ∧
      q.entries.length = cap := by
  refine ⟨_, MediaFrameQueue.pushFrames_eq inputs (MediaFrameQueue.new cap start)
    (by simp [MediaFrameQueue.new, MediaFrameQueue.size, SharedQueue.size]), ?_, ?_⟩
  · simp [MediaFrameQueue.new, MediaFrameQueue.entries, MediaFrameQueue.size,
      SharedQueue.size]
  · simp [MediaFrameQueue.new, MediaFrameQueue.entries, MediaFrameQueue.size,
      SharedQueue.size]
    omega

/-- Witness of C1, the scenario of the spec: capacity 3 and the pushes of A, B,
C, D, E leave C, D, E. -/
theorem C1_pushes_keep_most_recent_witness :
    3 < pushesAtoE.length ∧
    ∃ q, MediaFrameQueue.pushFrames (MediaFrameQueue.new 3 100) pushesAtoE = some q ∧
      q.entries = [EncodedFrame.new [67] 1 3, EncodedFrame.new [68] 1 4,
        EncodedFrame.new [69] 1 5] := by
  obtain ⟨q, h1, h2, -⟩ := C1_pushes_keep_most_recent 3 100 pushesAtoE (by decide)
  exact ⟨by decide, q, h1, by rw [h2]; decide⟩

/-- C2: for every list of `n <= capacity` inputs pushed with `pushFrame` into an
empty `MediaFrameQueue`, the pushes return and `n` successive `popFrame` calls
return `n` frames in exactly the order pushed, each with `m_payloadSize` equal
to the pushed length and payload bytes equal to `data[0..length)`, and leave
the queue empty. -/
theorem C2_push_pop_round_trip (q0 : MediaFrameQueue) (inputs : List PushInput)
    (hempty : q0.entries = []) (hn : inputs.length ≤ q0.m_max) :
    ∃ q frames q1,
      MediaFrameQueue.pushFrames q0 inputs = some q ∧
      MediaFrameQueue.popFrames inputs.length q = some (frames, q1) ∧
      frames = inputs.map (PushInput.frame q0.m_startTimeOffset) ∧
      frames.map (fun f => f.m_payloadSize) = inputs.map (fun i => i.length) ∧
      frames.map (fun f => f.m_payloadData) =
        inputs.map (fun i => i.data.take i.length.val) ∧
      q1.entries = [] := by
  have hsz : q0.size = 0 := by
    simp [MediaFrameQueue.size, SharedQueue.size, MediaFrameQueue.entries] at hempty ⊢
    exact hempty
  have hpush := MediaFrameQueue.pushFrames_eq inputs q0 (by omega)
  have hdrop : q0.size + inputs.length - q0.m_max = 0 := by omega
  rw [hdrop, hempty, List.drop_zero, List.nil_append] at hpush
  have htake : (inputs.map (PushInput.frame q0.m_startTimeOffset)).take inputs.length
      = inputs.map (PushInput.frame q0.m_startTimeOffset) :=
    List.take_of_length_le (by simp)
  refine ⟨_, _, _, hpush, MediaFrameQueue.popFrames_eq _ _ ?_, ?_, ?_, ?_, ?_⟩
  · simp [MediaFrameQueue.size, SharedQueue.size]
  · simp [MediaFrameQueue.entries]
  · simp only [MediaFrameQueue.entries, htake, List.map_map]
    apply List.map_congr_left
    intro i _
    rfl
  · simp only [MediaFrameQueue.entries, htake, List.map_map]
    apply List.map_congr_left
    intro i _
    rfl
  · simp [MediaFrameQueue.entries]

/-- Witness of C2: three pushes into an empty queue of capacity 3. -/
theorem C2_push_pop_round_trip_witness :
    (MediaFrameQueue.new 3 100).entries = [] ∧
    (pushesAtoE.take 3).length ≤ (MediaFrameQueue.new 3 100).m_max ∧
    ∃ q frames q1,
      MediaFrameQueue.pushFrames (MediaFrameQueue.new 3 100) (pushesAtoE.take 3) = some q ∧
      MediaFrameQueue.popFrames 3 q = some (frames, q1) ∧
      frames.map (fun f => f.m_payloadData) = [[65], [66], [67]] ∧
      frames.map (fun f => f.m_payloadSize) = [1, 1, 1] ∧
      q1.entries = [] := by
  obtain ⟨q, frames, q1, h1, h2, -, h4, h5, h6⟩ :=
    C2_push_pop_round_trip (MediaFrameQueue.new 3 100) (pushesAtoE.take 3) rfl (by decide)
  exact ⟨rfl, by decide, q, frames, q1, h1, h2, by rw [h5]; decide, by rw [h4]; decide, h6⟩

/-- C3: `pushFrame` returns for every prior queue state and leaves at most
`m_max` entries; `popFrame` keeps the bound; hence size <= capacity holds in
every state reached from construction by a sequence of `pushFrame` and
`popFrame` calls. -/
theorem C3_size_le_capacity (q : MediaFrameQueue) (i : PushInput) (cap : Nat) (start : Int)
    (ops : List QueueOp) :
    (∃ q1, q.pushFrame i.data i.length i.now = some q1 ∧ q1.size ≤ q1.m_max ∧
      q1.m_max = q.m_max) ∧
    (∀ frame q1, q.size ≤ q.m_max → q.popFrame = some (frame, q1) →
      q1.size ≤ q1.m_max ∧ q1.m_max = q.m_max) ∧
    (MediaFrameQueue.new cap start).size ≤ (MediaFrameQueue.new cap start).m_max ∧
    (∀ q1, (MediaFrameQueue.new cap start).applyOps ops = some q1 →
      q1.size ≤ cap ∧ q1.m_max = cap) := by
  refine ⟨?_, ?_, ?_, ?_⟩
  · obtain ⟨q1, h1, h2, h3, -⟩ := MediaFrameQueue.pushFrame_size_le q i.data i.length i.now
    exact ⟨q1, h1, h2, h3⟩
  · intro frame q1 hq hp
    obtain ⟨-, hsz, hmax, -⟩ := MediaFrameQueue.popFrame_size q frame q1 hp
    exact ⟨by omega, hmax⟩
  · simp [MediaFrameQueue.new, MediaFrameQueue.size, SharedQueue.size]
  · intro q1 h
    have h0 : (MediaFrameQueue.new cap start).size ≤ (MediaFrameQueue.new cap start).m_max := by
      simp [MediaFrameQueue.new, MediaFrameQueue.size, SharedQueue.size]
    obtain ⟨h1, h2⟩ := MediaFrameQueue.applyOps_size_le ops _ q1 h0 h
    have h3 : q1.m_max = cap := h2
    exact ⟨by omega, h3⟩

/-- Witness of C3: a push on a queue of capacity 1 that holds three entries
leaves one entry, and a run of pushes and pops on a fresh queue of capacity 2
ends within the bound. -/
theorem C3_size_le_capacity_witness :
    (∃ q1, (MediaFrameQueue.mk ⟨[EncodedFrame.new [65] 1 1, EncodedFrame.new [66] 1 2,
          EncodedFrame.new [67] 1 3]⟩ 1 100).pushFrame [68] 1 104 = some q1 ∧
      q1.size ≤ 1) ∧
    (∀ q1, (MediaFrameQueue.new 2 100).applyOps
        [.push (oneByte 65 101), .push (oneByte 66 102), .pop, .push (oneByte 67 103),
          .push (oneByte 68 104)] = some q1 → q1.size ≤ 2 ∧ q1.m_max = 2) := by
  have h := C3_size_le_capacity
    (MediaFrameQueue.mk ⟨[EncodedFrame.new [65] 1 1, EncodedFrame.new [66] 1 2,
      EncodedFrame.new [67] 1 3]⟩ 1 100) (oneByte 68 104) 2 100
    [.push (oneByte 65 101), .push (oneByte 66 102), .pop, .push (oneByte 67 103),
      .push (oneByte 68 104)]
  obtain ⟨⟨q1, h1, h2, h3⟩, -, -, h4⟩ := h
  exact ⟨⟨q1, h1, by rw [h3] at h2; exact h2⟩, h4⟩

/-- C4: on a `MediaMuxer` with a non-null notifier and `m_callbackCalled` false,
`n >= 1` calls of `callback` made one after another invoke `notify` exactly
once, with the data of the first call; after the first call and after every
later one the object and the world are what the first call left, so each later
call delivers nothing and changes neither the notifier nor the flag. -/
theorem C4_callback_delivers_once (m : MediaMuxer) (w : World) (registry : RegistryPtr)
    (data : String) (rest : List String)
    (hcb : m.m_callback = some registry) (hfired : m.m_callbackCalled = false) :
    m.callbacks w (data :: rest) =
      ({ m with m_callbackCalled := true },
        { w with notified := w.notified ++ [(registry, data)] }) ∧
    (∀ k, 1 ≤ k → m.callbacks w ((data :: rest).take k) = m.callback w data) ∧
    (∀ later, (m.callback w data).1.callback (m.callback w data).2 later
      = m.callback w data) := by
  have hfirst : m.callback w data =
      ({ m with m_callbackCalled := true },
        { w with notified := w.notified ++ [(registry, data)] }) := by
    simp [MediaMuxer.callback, hcb, hfired]
  have hlater : ∀ later, (m.callback w data).1.callback (m.callback w data).2 later
      = m.callback w data := by
    intro later
    rw [hfirst]
    simp [MediaMuxer.callback, hcb]
  have hall : ∀ ds : List String,
      MediaMuxer.callbacks (m.callback w data).1 (m.callback w data).2 ds
        = m.callback w data := by
    intro ds
    induction ds with
    | nil => rfl
    | cons d ds ih =>
      rw [MediaMuxer.callbacks]
      simp only [hlater d]
      exact ih
  refine ⟨?_, ?_, hlater⟩
  · rw [MediaMuxer.callbacks]
    simp only [hall rest]
    exact hfirst
  · intro k hk
    obtain ⟨j, rfl⟩ : ∃ j, k = j + 1 := ⟨k - 1, by omega⟩
    rw [List.take_succ_cons, MediaMuxer.callbacks]
    simp only [hall]

/-- Witness of C4: three calls on a fresh muxer with the registry 7. -/
theorem C4_callback_delivers_once_witness :
    (MediaMuxer.new (some 7)).m_callback = some 7 ∧
    (MediaMuxer.new (some 7)).m_callbackCalled = false ∧
    ((MediaMuxer.new (some 7)).callbacks ⟨[], []⟩ ["ok", "fail", "late"]).2.notified
      = [(7, "ok")] := by
  have h := (C4_callback_delivers_once (MediaMuxer.new (some 7)) ⟨[], []⟩ 7 "ok"
    ["fail", "late"] rfl rfl).1
  exact ⟨rfl, rfl, by rw [h]; rfl⟩

/-- C5: `resetEventRegistry(newRegistry)` returns false when `newRegistry` is
null or is the current notifier, and then has no effect: the notifier, the
fired flag and the status are unchanged and nothing is released or notified. -/
theorem C5_reset_rejected (m : MediaMuxer) (w : World) (newRegistry : Option RegistryPtr)
    (h : newRegistry = none ∨ newRegistry = m.m_callback) :
    m.resetEventRegistry w newRegistry = (false, m, w) := by
  rcases h with h | h
  · simp [MediaMuxer.resetEventRegistry, h]
  · simp [MediaMuxer.resetEventRegistry, h]

/-- Witness of C5: the current registry 7 passed again, after a delivery. -/
theorem C5_reset_rejected_witness :
    (some 7 = none ∨ some 7 = (MediaMuxer.mk .Context_READY (some 7) true).m_callback) ∧
    (MediaMuxer.mk .Context_READY (some 7) true).resetEventRegistry ⟨[(7, "ok")], []⟩ (some 7)
      = (false, MediaMuxer.mk .Context_READY (some 7) true, ⟨[(7, "ok")], []⟩) :=
  ⟨Or.inr rfl, C5_reset_rejected _ _ _ (Or.inr rfl)⟩

/-- C6: `resetEventRegistry(newRegistry)` returns true if and only if
`newRegistry` is non-null and differs from the current notifier; in that case
it releases the previous notifier when there is one, makes `newRegistry` the
current notifier and sets the fired flag to false whatever it was, and it
changes neither the status nor the deliveries made. -/
theorem C6_reset_accepted (m : MediaMuxer) (w : World) (newRegistry : Option RegistryPtr) :
    ((m.resetEventRegistry w newRegistry).1 = true ↔
      (newRegistry ≠ none ∧ newRegistry ≠ m.m_callback)) ∧
    (newRegistry ≠ none → newRegistry ≠ m.m_callback →
      m.resetEventRegistry w newRegistry =
        (true,
          { m_status := m.m_status, m_callback := newRegistry, m_callbackCalled := false },
          { notified := w.notified, deleted := w.deleted ++ m.m_callback.toList })) := by
  obtain ⟨status, cb, called⟩ := m
  obtain ⟨notified, deleted⟩ := w
  cases newRegistry with
  | none => simp [MediaMuxer.resetEventRegistry]
  | some n =>
    by_cases hsame : cb = some n
    · subst hsame
      simp [MediaMuxer.resetEventRegistry]
    · have hne : (cb == some n) = false := by simpa using hsame
      have hne2 : ¬ (some n = cb) := fun h => hsame h.symm
      cases cb with
      | none => simp [MediaMuxer.resetEventRegistry]
      | some old => simp [MediaMuxer.resetEventRegistry, hne, hne2]

/-- Witness of C6: the registry 8 replaces the registry 7 after a delivery. -/
theorem C6_reset_accepted_witness :
    (MediaMuxer.mk .Context_READY (some 7) true).resetEventRegistry ⟨[(7, "ok")], []⟩ (some 8)
      = (true, MediaMuxer.mk .Context_READY (some 8) false, ⟨[(7, "ok")], [7]⟩) :=
  (C6_reset_accepted (MediaMuxer.mk .Context_READY (some 7) true) ⟨[(7, "ok")], []⟩
    (some 8)).2 (by decide) (by decide)

/-- C7: on a `MediaMuxer` whose fired flag is true a `callback` call delivers
nothing; `resetEventRegistry(N)` with a notifier `N` other than the current one
succeeds, and a following `callback(d)` delivers `d` to `N` and nothing to the
previous notifier, and leaves fired true, so that no later run of `callback`
calls delivers anything. -/
theorem C7_reset_rearms_delivery (m : MediaMuxer) (w : World) (n : RegistryPtr) (d : String)
    (hfired : m.m_callbackCalled = true) (hnew : m.m_callback ≠ some n) :
    m.callback w d = (m, w) ∧
    (m.resetEventRegistry w (some n)).1 = true ∧
    (m.resetEventRegistry w (some n)).2.2.notified = w.notified ∧
    (m.resetEventRegistry w (some n)).2.1.callback (m.resetEventRegistry w (some n)).2.2 d =
      ({ m_status := m.m_status, m_callback := some n, m_callbackCalled := true },
        { notified := w.notified ++ [(n, d)],
          deleted := w.deleted ++ m.m_callback.toList }) ∧
    (∀ later : List String,
      MediaMuxer.callbacks
        { m_status := m.m_status, m_callback := some n, m_callbackCalled := true }
        { notified := w.notified ++ [(n, d)], deleted := w.deleted ++ m.m_callback.toList }
        later =
      ({ m_status := m.m_status, m_callback := some n, m_callbackCalled := true },
        { notified := w.notified ++ [(n, d)],
          deleted := w.deleted ++ m.m_callback.toList })) := by
  have hne : (some n : Option RegistryPtr) ≠ m.m_callback := fun h => hnew h.symm
  have hreset := MediaMuxer.resetEventRegistry_accepted m w (some n) (by simp) hne
  refine ⟨?_, by rw [hreset], by rw [hreset], ?_, ?_⟩
  · cases hcb : m.m_callback with
    | none => simp [MediaMuxer.callback, hcb]
    | some old => simp [MediaMuxer.callback, hcb, hfired]
  · rw [hreset]
    simp [MediaMuxer.callback]
  · intro later
    induction later with
    | nil => rfl
    | cons x xs ih =>
      rw [MediaMuxer.callbacks]
      simpa [MediaMuxer.callback] using ih

/-- Witness of C7: the registry 7 has received "ok"; the registry 8 replaces it
and receives "done"; a further call delivers nothing. -/
theorem C7_reset_rearms_delivery_witness :
    (MediaMuxer.mk .Context_READY (some 7) true).m_callbackCalled = true ∧
    (MediaMuxer.mk .Context_READY (some 7) true).m_callback ≠ some 8 ∧
    ((MediaMuxer.mk .Context_READY (some 7) true).resetEventRegistry
        ⟨[(7, "ok")], []⟩ (some 8)).2.1.callback
      ((MediaMuxer.mk .Context_READY (some 7) true).resetEventRegistry
        ⟨[(7, "ok")], []⟩ (some 8)).2.2 "done" =
      (MediaMuxer.mk .Context_READY (some 8) true, ⟨[(7, "ok"), (8, "done")], [7]⟩) :=
  ⟨rfl, by decide,
    (C7_reset_rearms_delivery (MediaMuxer.mk .Context_READY (some 7) true)
      ⟨[(7, "ok")], []⟩ 8 "done" rfl (by decide)).2.2.2.1⟩

/-- C8, as the code computes it: the frame a `pushFrame` call inserts has
`m_timeStamp` equal to the 64-bit result of the clock reading of the push minus
`m_startTimeOffset`, which is their difference whenever that difference lies
in `[-2^63, 2^63)`, and the queue is constructed with `m_startTimeOffset` equal
to the clock reading then; so for pushes made at non-decreasing clock
readings, none earlier than the reading at construction and each less than
`2^63` above it, the timestamps of the frames inserted (those then discarded
and those left in the queue) are non-negative and non-decreasing in push
order. -/
theorem C8_timestamps_in_range (q : MediaFrameQueue) (i : PushInput) (cap : Nat)
    (start : Int) (inputs : List PushInput)
    (hlo : -(2 ^ 63) ≤ i.now - q.m_startTimeOffset)
    (hhi : i.now - q.m_startTimeOffset < 2 ^ 63)
    (hmono : (inputs.map (fun x => x.now)).Pairwise (fun a b => a ≤ b))
    (hstart : ∀ x ∈ inputs, start ≤ x.now)
    (hfit : ∀ x ∈ inputs, x.now - start < 2 ^ 63) :
    (∃ dropped q1 frame, q.pushFrameTrace i.data i.length i.now = some (dropped, q1) ∧
      dropped ++ q1.entries = q.entries ++ [frame] ∧
      frame.m_timeStamp = wrapInt64 (i.now - q.m_startTimeOffset) ∧
      frame.m_timeStamp = i.now - q.m_startTimeOffset) ∧
    (MediaFrameQueue.new cap start).m_startTimeOffset = start ∧
    (∃ dropped q1,
      (MediaFrameQueue.new cap start).pushFramesTrace inputs = some (dropped, q1) ∧
      (dropped ++ q1.entries).map (fun f => f.m_timeStamp)
        = inputs.map (fun x => x.now - start) ∧
      (∀ f ∈ dropped ++ q1.entries, 0 ≤ f.m_timeStamp) ∧
      ((dropped ++ q1.entries).map (fun f => f.m_timeStamp)).Pairwise (fun a b => a ≤ b) ∧
      (q1.entries.map (fun f => f.m_timeStamp)).Pairwise (fun a b => a ≤ b)) := by
  refine ⟨?_, rfl, ?_⟩
  · refine ⟨_, _,
      EncodedFrame.new i.data i.length (wrapInt64 (i.now - q.m_startTimeOffset)),
      MediaFrameQueue.pushFrameTrace_eq q i.data i.length i.now, ?_, rfl, ?_⟩
    · simp only [MediaFrameQueue.entries]
      exact List.take_append_drop _ _
    · exact wrapInt64_eq_self _ hlo hhi
  · obtain ⟨dropped, q1, h1, -, h3, -, -⟩ :=
      MediaFrameQueue.pushFramesTrace_spec inputs (MediaFrameQueue.new cap start)
    have hall : dropped ++ q1.entries = inputs.map (PushInput.frame start) := by
      rw [h3]
      simp [MediaFrameQueue.new, MediaFrameQueue.entries]
    have hts : (dropped ++ q1.entries).map (fun f => f.m_timeStamp)
        = inputs.map (fun x => x.now - start) := by
      rw [hall, List.map_map]
      apply List.map_congr_left
      intro x hx
      have h0 := hstart x hx
      exact wrapInt64_eq_self _ (by omega) (hfit x hx)
    have hsorted : ((dropped ++ q1.entries).map (fun f => f.m_timeStamp)).Pairwise
        (fun a b => a ≤ b) := by
      rw [hts]
      rw [List.pairwise_map] at hmono ⊢
      exact hmono.imp (fun h => by omega)
    refine ⟨dropped, q1, h1, hts, ?_, hsorted, ?_⟩
    · intro f hf
      have hmem : f.m_timeStamp ∈ (dropped ++ q1.entries).map (fun f => f.m_timeStamp) :=
        List.mem_map.mpr ⟨f, hf, rfl⟩
      rw [hts, List.mem_map] at hmem
      obtain ⟨x, hx, hxe⟩ := hmem
      have := hstart x hx
      omega
    · rw [List.map_append, List.pairwise_append] at hsorted
      exact hsorted.2.1

/-- Witness of C8: the pushes of A..E at the readings 101..105 on a queue of
capacity 3 constructed at the reading 100. -/
theorem C8_timestamps_in_range_witness :
    (pushesAtoE.map (fun x => x.now)).Pairwise (fun a b => a ≤ b) ∧
    (∀ x ∈ pushesAtoE, (100 : Int) ≤ x.now) ∧
    (∀ x ∈ pushesAtoE, x.now - 100 < 2 ^ 63) ∧
    ∃ dropped q1,
      (MediaFrameQueue.new 3 100).pushFramesTrace pushesAtoE = some (dropped, q1) ∧
      (dropped ++ q1.entries).map (fun f => f.m_timeStamp) = [1, 2, 3, 4, 5] := by
  have hmono : (pushesAtoE.map (fun x => x.now)).Pairwise (fun a b => a ≤ b) := by decide
  have hstart : ∀ x ∈ pushesAtoE, (100 : Int) ≤ x.now := by decide
  have hfit : ∀ x ∈ pushesAtoE, x.now - 100 < 2 ^ 63 := by decide
  obtain ⟨-, -, dropped, q1, h1, h2, -⟩ :=
    C8_timestamps_in_range (MediaFrameQueue.new 3 100) (oneByte 65 101) 3 100 pushesAtoE
      (by decide) (by decide) hmono hstart hfit
  exact ⟨hmono, hstart, hfit, dropped, q1, h1, by rw [h2]; decide⟩

/-- Counterexample to C8: a queue constructed at the `int64_t` clock reading
-9223372036854775000 and a push at the later `int64_t` reading
9223372036854775000; the difference 18446744073709550000 does not fit 64 bits
and the frame inserted has the timestamp -1616, which is neither the
difference of the readings nor non-negative. -/
theorem C8_subtraction_overflows :
    -(2 ^ 63) ≤ (-9223372036854775000 : Int) ∧
    (-9223372036854775000 : Int) ≤ 9223372036854775000 ∧
    (9223372036854775000 : Int) < 2 ^ 63 ∧
    (MediaFrameQueue.new 3 (-9223372036854775000)).pushFrameTrace [65] 1 9223372036854775000
      = some ([], ⟨⟨[EncodedFrame.mk (-1616) [65] 1]⟩, 3, -9223372036854775000⟩) ∧
    (-1616 : Int) ≠ 9223372036854775000 - (-9223372036854775000) ∧
    (-1616 : Int) < 0 := by
  refine ⟨by decide, by decide, by decide, ?_, by decide, by decide⟩
  rw [MediaFrameQueue.pushFrameTrace_eq]
  decide

/-- C9, as the code has it: the condition of line 150 reads the fired flag and
line 151 writes it, two plain accesses.  For calls `callback(d)`, `d` in
`datas`, on a muxer with a non-null notifier and the flag false: when each call
runs to its end before the next starts, the deliveries are those of the calls
made one after another, exactly one for one call or more, with the data of the
first call; under every schedule each delivery goes to the notifier with the
data of one of the calls, there are at most as many deliveries as calls, and at
least one once all of one call or more have returned. -/
theorem C9_callback_schedules (m : MediaMuxer) (w : World) (registry : RegistryPtr)
    (datas : List String) (schedule : List Nat)
    (hcb : m.m_callback = some registry) (hfired : m.m_callbackCalled = false) :
    ((Shared.start m w datas).run (Shared.sequential datas.length)).mux
      = (m.callbacks w datas).1 ∧
    ((Shared.start m w datas).run (Shared.sequential datas.length)).world
      = (m.callbacks w datas).2 ∧
    ((Shared.start m w datas).run (Shared.sequential datas.length)).allReturned = true ∧
    (∀ d rest, datas = d :: rest →
      ((Shared.start m w datas).run (Shared.sequential datas.length)).world.notified
        = w.notified ++ [(registry, d)]) ∧
    (∃ extra, ((Shared.start m w datas).run schedule).world.notified = w.notified ++ extra ∧
      (∀ x ∈ extra, x.1 = registry ∧ x.2 ∈ datas) ∧
      extra.length ≤ datas.length ∧
      (((Shared.start m w datas).run schedule).allReturned = true → datas ≠ [] →
        1 ≤ extra.length)) := by
  have hseq : (Shared.start m w datas).run (Shared.sequential datas.length) =
      ⟨(m.callbacks w datas).1, (m.callbacks w datas).2,
        datas.map (fun d => { data := d, pc := .returned })⟩ := by
    have := Shared.run_sequentialFrom datas m w []
    simpa [Shared.start, Shared.sequential] using this
  refine ⟨by rw [hseq], by rw [hseq], ?_, ?_, ?_⟩
  · rw [hseq]
    simp [Shared.allReturned]
  · intro d rest hd
    subst hd
    rw [hseq]
    simp only
    rw [MediaMuxer.callbacks_fresh m w registry d rest hcb hfired]
  · obtain ⟨-, hdata, extra, hnot, hfrom, hcount, hlow, hhigh⟩ :=
      Shared.inv_run w.notified registry datas schedule _
        (Shared.inv_start m w registry datas hcb hfired)
    refine ⟨extra, hnot, hfrom, by omega, ?_⟩
    intro hall hne
    simp only [Shared.allReturned, List.all_eq_true, beq_iff_eq] at hall
    cases hcalls : ((Shared.start m w datas).run schedule).calls with
    | nil =>
      rw [hcalls] at hdata
      exact absurd hdata.symm hne
    | cons c cs =>
      have hc : c.pc = .returned := hall c (by rw [hcalls]; exact List.mem_cons_self _ _)
      have h0 : ((Shared.start m w datas).run schedule).calls[0]? = some c := by
        rw [hcalls]
        simp
      cases hflag : ((Shared.start m w datas).run schedule).mux.m_callbackCalled with
      | false =>
        rcases hlow hflag 0 c h0 with h1 | h1
        · rw [hc] at h1
          cases h1
        · rw [hc] at h1
          cases h1
      | true =>
        rcases hhigh hflag with ⟨j, c2, hj, hpc⟩ | h1
        · have := hall c2 (List.mem_iff_getElem?.mpr ⟨j, hj⟩)
          rw [hpc] at this
          cases this
        · exact h1

/-- Witness of C9: two calls run one after the other deliver "ok" once; run in
any other order they deliver once or twice. -/
theorem C9_callback_schedules_witness :
    (MediaMuxer.new (some 7)).m_callback = some 7 ∧
    (MediaMuxer.new (some 7)).m_callbackCalled = false ∧
    ((Shared.start (MediaMuxer.new (some 7)) ⟨[], []⟩ ["ok", "fail"]).run
      (Shared.sequential 2)).world.notified = [(7, "ok")] ∧
    (∃ extra,
      ((Shared.start (MediaMuxer.new (some 7)) ⟨[], []⟩ ["ok", "fail"]).run
        [1, 0, 1, 1, 0, 0]).world.notified = [] ++ extra ∧
      extra.length ≤ 2) := by
  obtain ⟨-, -, -, h4, extra, h5, -, h6, -⟩ :=
    C9_callback_schedules (MediaMuxer.new (some 7)) ⟨[], []⟩ 7 ["ok", "fail"]
      [1, 0, 1, 1, 0, 0] rfl rfl
  exact ⟨rfl, rfl, h4 "ok" ["fail"] rfl, extra, h5, h6⟩

/-- Counterexample to C9: two contexts call `callback("ok")` and
`callback("fail")` on a muxer with the notifier 7; both read the fired flag
before either writes it, and once both calls have returned the notifier has
been notified twice, with both payloads.  With no call at all, the notifier
receives nothing. -/
theorem C9_two_contexts_deliver_twice :
    ((Shared.start (MediaMuxer.new (some 7)) ⟨[], []⟩ ["ok", "fail"]).run
      [0, 1, 0, 0, 1, 1]).world.notified = [(7, "ok"), (7, "fail")] ∧
    ((Shared.start (MediaMuxer.new (some 7)) ⟨[], []⟩ ["ok", "fail"]).run
      [0, 1, 0, 0, 1, 1]).allReturned = true ∧
    ((Shared.start (MediaMuxer.new (some 7)) ⟨[], []⟩ []).run []).world.notified = [] := by
  refine ⟨?_, ?_, ?_⟩ <;> rfl

/-- C10: `popFrame` on a non-empty `MediaFrameQueue` removes and returns the
head frame; on an empty one the call returns no frame: it blocks, and once a
`pushFrame` has put a frame in the queue (capacity 1 or more) the pop returns
that frame and leaves the queue empty again. -/
theorem C10_popFrame_head_or_blocks (q : MediaFrameQueue) (i : PushInput) :
    (∀ frame rest, q.entries = frame :: rest →
      q.popFrame = some (frame, { q with m_queue := ⟨rest⟩ })) ∧
    (q.entries = [] →
      q.popFrame = none ∧
      (1 ≤ q.m_max → ∃ q1, q.pushFrame i.data i.length i.now = some q1 ∧
        q1.popFrame =
          some (EncodedFrame.new i.data i.length (wrapInt64 (i.now - q.m_startTimeOffset)), q))) := by
  obtain ⟨⟨items⟩, max, start⟩ := q
  constructor
  · intro frame rest h
    simp only [MediaFrameQueue.entries] at h
    subst h
    rfl
  · intro h
    simp only [MediaFrameQueue.entries] at h
    subst h
    refine ⟨rfl, fun hmax => ⟨_, MediaFrameQueue.pushFrame_eq _ _ _ _, ?_⟩⟩
    simp only at hmax
    have e : 0 + 1 - max = 0 := by omega
    simp [MediaFrameQueue.entries, MediaFrameQueue.size, SharedQueue.size, e,
      MediaFrameQueue.popFrame, SharedQueue.pop]

/-- Witness of C10, the scenario of the spec: capacity 3, the pushes of A..E,
three pops that return C, D, E, a fourth pop that blocks, and after the push
of F a pop that returns F. -/
theorem C10_popFrame_head_or_blocks_witness :
    ∃ q frames q3,
      (MediaFrameQueue.new 3 100).pushFrames pushesAtoE = some q ∧
      q.popFrames 3 = some (frames, q3) ∧
      frames.map (fun f => f.m_payloadData) = [[67], [68], [69]] ∧
      q3.popFrame = none ∧
      ∃ q4, q3.pushFrame [70] 1 106 = some q4 ∧
        q4.popFrame = some (EncodedFrame.new [70] 1 6, q3) := by
  have hpush := MediaFrameQueue.pushFrames_eq pushesAtoE (MediaFrameQueue.new 3 100)
    (by decide)
  have hpop := MediaFrameQueue.popFrames_eq 3
    { MediaFrameQueue.new 3 100 with m_queue :=
        ⟨((MediaFrameQueue.new 3 100).entries ++
            pushesAtoE.map (PushInput.frame (MediaFrameQueue.new 3 100).m_startTimeOffset)).drop
          ((MediaFrameQueue.new 3 100).size + pushesAtoE.length
            - (MediaFrameQueue.new 3 100).m_max)⟩ }
    (by decide)
  have hq3 : ({ MediaFrameQueue.new 3 100 with m_queue :=
        ⟨(({ MediaFrameQueue.new 3 100 with m_queue :=
        ⟨((MediaFrameQueue.new 3 100).entries ++
            pushesAtoE.map (PushInput.frame (MediaFrameQueue.new 3 100).m_startTimeOffset)).drop
          ((MediaFrameQueue.new 3 100).size + pushesAtoE.length
            - (MediaFrameQueue.new 3 100).m_max)⟩ } : MediaFrameQueue).entries).drop 3⟩ }
        : MediaFrameQueue) = MediaFrameQueue.new 3 100 := by
    decide
  have h := C10_popFrame_head_or_blocks (MediaFrameQueue.new 3 100) (oneByte 70 106)
  obtain ⟨hnone, hsome⟩ := h.2 rfl
  obtain ⟨q4, h4, h5⟩ := hsome (by decide)
  refine ⟨_, _, _, hpush, hpop, by decide, ?_, ?_⟩
  · simp only [hq3]
    exact hnone
  · simp only [hq3]
    exact ⟨q4, h4, h5⟩

/-- C11: for every sequence of `resetEventRegistry` and `callback` calls on a
`MediaMuxer`, in any order, the deliveries number at most 1 plus the number of
`resetEventRegistry` calls that returned true; a stretch of calls in which no
`resetEventRegistry` returns true, wherever it starts in the sequence, delivers
at most once, and not at all when the fired flag is true at its start; a
`callback` either changes nothing or takes the flag from false to true with
one delivery; a rejected `resetEventRegistry` changes nothing, so it does not
re-arm delivery. -/
theorem C11_one_delivery_per_generation (m : MediaMuxer) (w : World) (ops : List MuxerOp) :
    (∃ extra, (m.runOps w ops).2.1.notified = w.notified ++ extra ∧
      extra.length ≤ 1 + (m.runOps w ops).2.2 ∧
      ((m.runOps w ops).2.2 = 0 → extra.length ≤ 1) ∧
      ((m.runOps w ops).2.2 = 0 → m.m_callbackCalled = true → extra = [])) ∧
    (∀ before segment, ops = before ++ segment →
      (MediaMuxer.runOps (m.runOps w before).1 (m.runOps w before).2.1 segment).2.2 = 0 →
      ∃ extra, (m.runOps w ops).2.1.notified
          = (m.runOps w before).2.1.notified ++ extra ∧
        extra.length ≤ 1 ∧
        ((m.runOps w before).1.m_callbackCalled = true → extra = [])) ∧
    (∀ data, m.callback w data = (m, w) ∨
      (m.m_callbackCalled = false ∧ (m.callback w data).1.m_callbackCalled = true ∧
        ∃ registry, m.m_callback = some registry ∧
          (m.callback w data).2.notified = w.notified ++ [(registry, data)])) ∧
    (∀ newRegistry, (m.resetEventRegistry w newRegistry).1 = false →
      m.resetEventRegistry w newRegistry = (false, m, w)) := by
  have hseg : ∀ (m0 : MediaMuxer) (w0 : World) (segment : List MuxerOp),
      (m0.runOps w0 segment).2.2 = 0 →
      ∃ extra, (m0.runOps w0 segment).2.1.notified = w0.notified ++ extra ∧
        extra.length ≤ 1 ∧ (m0.m_callbackCalled = true → extra = []) := by
    intro m0 w0 segment h0
    obtain ⟨extra, h1, h2⟩ := MediaMuxer.runOps_deliveries segment m0 w0
    rw [h0] at h2
    refine ⟨extra, h1, ?_, ?_⟩
    · have : (if m0.m_callbackCalled = true then 0 else 1) ≤ 1 := by split <;> omega
      omega
    · intro hf
      simp only [hf, if_true] at h2
      exact List.length_eq_zero.mp (by omega)
  refine ⟨?_, ?_, ?_, ?_⟩
  · obtain ⟨extra, h1, h2⟩ := MediaMuxer.runOps_deliveries ops m w
    refine ⟨extra, h1, ?_, ?_, ?_⟩
    · have : (if m.m_callbackCalled = true then 0 else 1) ≤ 1 := by split <;> omega
      omega
    · intro h0
      obtain ⟨extra2, h3, h4, -⟩ := hseg m w ops h0
      rw [h1] at h3
      have := List.append_cancel_left h3
      rw [this]
      exact h4
    · intro h0 hf
      obtain ⟨extra2, h3, -, h5⟩ := hseg m w ops h0
      rw [h1] at h3
      have := List.append_cancel_left h3
      rw [this]
      exact h5 hf
  · intro before segment hops h0
    subst hops
    obtain ⟨extra, h1, h2, h3⟩ := hseg _ _ segment h0
    refine ⟨extra, ?_, h2, h3⟩
    rw [MediaMuxer.runOps_append]
    exact h1
  · intro data
    rcases MediaMuxer.callback_cases m w data with h | ⟨hf, registry, hcb, h⟩
    · exact Or.inl h
    · exact Or.inr ⟨hf, by rw [h], registry, hcb, by rw [h]⟩
  · intro newRegistry hfalse
    rcases MediaMuxer.resetEventRegistry_cases m w newRegistry with h | h
    · exact h
    · rw [h] at hfalse
      cases hfalse

/-- Witness of C11: on a muxer constructed with the registry 7, two calls of
`callback`, two rejected resets, a call, the accepted reset to the registry 8
and two more calls deliver twice, once to each registry. -/
theorem C11_one_delivery_per_generation_witness :
    (MediaMuxer.new (some 7)).runOps ⟨[], []⟩
        [.call "a", .call "b", .reset none, .reset (some 7), .call "c", .reset (some 8),
          .call "d", .call "e"]
      = (MediaMuxer.mk .Context_EMPTY (some 8) true, ⟨[(7, "a"), (8, "d")], [7]⟩, 1) ∧
    ∃ extra,
      ((MediaMuxer.new (some 7)).runOps ⟨[], []⟩
        [.call "a", .call "b", .reset none, .reset (some 7), .call "c", .reset (some 8),
          .call "d", .call "e"]).2.1.notified = [] ++ extra ∧
      extra.length ≤ 1 + 1 := by
  obtain ⟨extra, h1, h2, -⟩ := (C11_one_delivery_per_generation (MediaMuxer.new (some 7))
    ⟨[], []⟩ [.call "a", .call "b", .reset none, .reset (some 7), .call "c",
      .reset (some 8), .call "d", .call "e"]).1
  exact ⟨rfl, extra, h1, h2⟩

/-- C12: a run of `pushFrame` and `popFrame` calls from an empty
`MediaFrameQueue` stops only at a pop made on an empty queue.  When every pop
is made on a non-empty queue, the frames built by the pushes, in push order,
are the frames that left the queue (each either returned by a pop or
discarded by a push), in the order they left, followed by the entries of the
queue; the frames returned are, in pop order, the pushed frames at strictly
increasing indices, one index per returned frame; and at every point of the
run the queue holds a contiguous block of the push sequence, between the
frames that have left and those not pushed yet. -/
theorem C12_fifo_interleaving (q0 : MediaFrameQueue) (ops : List QueueOp)
    (hempty : q0.entries = []) :
    (q0.applyOpsTrace ops = none →
      ∃ ops1 ops2 ev qm, ops = ops1 ++ QueueOp.pop :: ops2 ∧
        q0.applyOpsTrace ops1 = some (ev, qm) ∧ qm.entries = []) ∧
    (∀ events q1, q0.applyOpsTrace ops = some (events, q1) →
      pushedFrames q0.m_startTimeOffset ops = events.map QueueEvent.frame ++ q1.entries ∧
      (∃ idx : List Nat, idx.Pairwise (fun a b => a < b) ∧
        (∀ k ∈ idx, k < events.length) ∧
        idx.length = (returnedFrames events).length ∧
        returnedFrames events
          = idx.filterMap (fun k => (pushedFrames q0.m_startTimeOffset ops)[k]?)) ∧
      (∀ ops1 ops2, ops = ops1 ++ ops2 →
        ∃ ev1 qm ev2,
          q0.applyOpsTrace ops1 = some (ev1, qm) ∧
          events = ev1 ++ ev2 ∧
          returnedFrames events = returnedFrames ev1 ++ returnedFrames ev2 ∧
          pushedFrames q0.m_startTimeOffset ops
            = ev1.map QueueEvent.frame ++ qm.entries
              ++ pushedFrames q0.m_startTimeOffset ops2)) := by
  refine ⟨MediaFrameQueue.applyOpsTrace_none ops q0, ?_⟩
  intro events q1 h
  have hall := (MediaFrameQueue.applyOpsTrace_spec ops q0 events q1 h).1
  rw [hempty, List.nil_append] at hall
  refine ⟨hall, ?_, ?_⟩
  · obtain ⟨idx, h1, h2, h3, h4⟩ := returnedFrames_indices events
    exact ⟨idx, h1, h2, h3, by rw [hall]; exact h4 q1.entries⟩
  · intro ops1 ops2 hops
    subst hops
    obtain ⟨ev1, qm, ev2, h1, -, h3⟩ := MediaFrameQueue.applyOpsTrace_append ops1 ops2 _ _ _ h
    refine ⟨ev1, qm, ev2, h1, h3, by rw [h3, MediaFrameQueue.returnedFrames_append], ?_⟩
    have hmid := (MediaFrameQueue.applyOpsTrace_spec ops1 q0 ev1 qm h1).1
    rw [hempty, List.nil_append] at hmid
    rw [pushedFrames_append, hmid]

/-- Witness of C12: on a queue of capacity 2 the pushes of A, B, C, a pop, the
push of D and two pops discard A and return B, C, D, the pushed frames of
indices 1, 2, 3. -/
theorem C12_fifo_interleaving_witness :
    (MediaFrameQueue.new 2 100).entries = [] ∧
    (MediaFrameQueue.new 2 100).applyOpsTrace runABCD
      = some ([.evicted (EncodedFrame.new [65] 1 1), .returned (EncodedFrame.new [66] 1 2),
          .returned (EncodedFrame.new [67] 1 3), .returned (EncodedFrame.new [68] 1 4)],
        MediaFrameQueue.new 2 100) ∧
    pushedFrames 100 runABCD
      = [EncodedFrame.new [65] 1 1, EncodedFrame.new [66] 1 2, EncodedFrame.new [67] 1 3,
          EncodedFrame.new [68] 1 4] ++ (MediaFrameQueue.new 2 100).entries := by
  have hrun : (MediaFrameQueue.new 2 100).applyOpsTrace runABCD
      = some ([.evicted (EncodedFrame.new [65] 1 1), .returned (EncodedFrame.new [66] 1 2),
          .returned (EncodedFrame.new [67] 1 3), .returned (EncodedFrame.new [68] 1 4)],
        MediaFrameQueue.new 2 100) := by
    simp [runABCD, MediaFrameQueue.applyOpsTrace, MediaFrameQueue.pushFrameTrace_eq,
      MediaFrameQueue.popFrame, SharedQueue.pop, MediaFrameQueue.new, MediaFrameQueue.entries,
      MediaFrameQueue.size, SharedQueue.size, oneByte]
    decide
  exact ⟨rfl, hrun,
    ((C12_fifo_interleaving (MediaFrameQueue.new 2 100) runABCD rfl).2 _ _ hrun).1⟩

/-- C13: for every byte sequence `data` of at least `length` bytes, `length` a
`uint16_t`, and every timestamp `t`, `EncodedFrame(data, length, t)` has
`m_timeStamp = t`, `m_payloadSize = length` and a payload of exactly `length`
bytes, byte `k` of it being byte `k` of `data`; so the payload has `length`
bytes for every constructed frame, `length = 0` included. -/
theorem C13_encodedFrame_copies (data : List Byte) (length : UInt16Val) (t : Int)
    (hdata : length.val ≤ data.length) :
    (EncodedFrame.new data length t).m_timeStamp = t ∧
    (EncodedFrame.new data length t).m_payloadSize = length ∧
    length.val ≤ 65535 ∧
    (EncodedFrame.new data length t).m_payloadData.length
      = (EncodedFrame.new data length t).m_payloadSize.val ∧
    (EncodedFrame.new data length t).m_payloadData = data.take length.val ∧
    (∀ k, k < length.val →
      (EncodedFrame.new data length t).m_payloadData[k]? = data[k]?) := by
  refine ⟨rfl, rfl, by omega, ?_, rfl, ?_⟩
  · simp only [EncodedFrame.new, memcpy, List.length_take]
    omega
  · intro k hk
    simp only [EncodedFrame.new, memcpy]
    rw [List.getElem?_take]
    simp [hk]

/-- Witness of C13: two of three bytes copied, and a frame of length 0. -/
theorem C13_encodedFrame_copies_witness :
    ((2 : UInt16Val).val ≤ ([10, 20, 30] : List Byte).length ∧
      (EncodedFrame.new [10, 20, 30] 2 5).m_payloadData = [10, 20] ∧
      (EncodedFrame.new [10, 20, 30] 2 5).m_payloadData.length = 2) ∧
    ((0 : UInt16Val).val ≤ ([10, 20, 30] : List Byte).length ∧
      (EncodedFrame.new [10, 20, 30] 0 5).m_payloadData.length
        = (EncodedFrame.new [10, 20, 30] 0 5).m_payloadSize.val) := by
  have h2 := C13_encodedFrame_copies [10, 20, 30] 2 5 (by decide)
  have h0 := C13_encodedFrame_copies [10, 20, 30] 0 5 (by decide)
  exact ⟨⟨by decide, by rw [h2.2.2.2.2.1]; rfl, by rw [h2.2.2.2.1]; rfl⟩,
    ⟨by decide, h0.2.2.2.1⟩⟩

/-- C14: a `MediaMuxer` starts with the status `Context_EMPTY`, of value 0, for
a null and for a non-null registry argument, and `resetEventRegistry`
(accepted or rejected) and `callback` (delivering or not) leave `m_status`
unchanged, as does every sequence of them. -/
theorem C14_status_untouched (registry : Option RegistryPtr) (m : MediaMuxer) (w : World)
    (newRegistry : Option RegistryPtr) (data : String) (ops : List MuxerOp) :
    (MediaMuxer.new registry).m_status = Status.Context_EMPTY ∧
    (MediaMuxer.new none).m_status = Status.Context_EMPTY ∧
    Status.Context_EMPTY.toInt = 0 ∧
    (m.resetEventRegistry w newRegistry).2.1.m_status = m.m_status ∧
    (m.callback w data).1.m_status = m.m_status ∧
    (m.runOps w ops).1.m_status = m.m_status ∧
    ((MediaMuxer.new registry).runOps w ops).1.m_status = Status.Context_EMPTY := by
  refine ⟨rfl, rfl, rfl, ?_, ?_, MediaMuxer.runOps_status ops m w,
    MediaMuxer.runOps_status ops _ w⟩
  · rcases MediaMuxer.resetEventRegistry_cases m w newRegistry with h | h <;> rw [h]
  · rcases MediaMuxer.callback_cases m w data with h | ⟨-, r, -, h⟩ <;> rw [h]

/-- C15: on a `MediaFrameQueue` of capacity 0 every `pushFrame` returns, its
loop discarding every entry, the frame just pushed included, and leaves the
queue empty, so that a `popFrame` then blocks; in a run of calls from
construction with capacity 0 no pop returns a frame: a run that completes
holds no pop and ends with the queue empty. -/
theorem C15_capacity_zero (q : MediaFrameQueue) (i : PushInput) (start : Int)
    (ops : List QueueOp) (hcap : q.m_max = 0) :
    q.pushFrameTrace i.data i.length i.now =
      some (q.entries ++ [EncodedFrame.new i.data i.length (wrapInt64 (i.now - q.m_startTimeOffset))],
        { q with m_queue := ⟨[]⟩ }) ∧
    (∃ q1, q.pushFrame i.data i.length i.now = some q1 ∧ q1.entries = [] ∧
      q1.popFrame = none) ∧
    (MediaFrameQueue.new 0 start).m_max = 0 ∧
    (∀ events q1, (MediaFrameQueue.new 0 start).applyOpsTrace ops = some (events, q1) →
      returnedFrames events = [] ∧ q1.entries = [] ∧ QueueOp.pop ∉ ops) := by
  have hk : q.size + 1 - q.m_max = (q.entries ++
      [EncodedFrame.new i.data i.length (wrapInt64 (i.now - q.m_startTimeOffset))]).length := by
    simp [MediaFrameQueue.size, MediaFrameQueue.entries, SharedQueue.size, hcap]
  refine ⟨?_, ?_, rfl, ?_⟩
  · rw [MediaFrameQueue.pushFrameTrace_eq, hk, List.take_length, List.drop_length]
  · refine ⟨_, MediaFrameQueue.pushFrame_eq q i.data i.length i.now, ?_, ?_⟩
    · simp only [MediaFrameQueue.entries]
      rw [← MediaFrameQueue.entries, hk, List.drop_length]
    · rw [hk, List.drop_length]
      rfl
  · intro events q1 h
    exact MediaFrameQueue.capacityZero_trace ops (MediaFrameQueue.new 0 start) events q1
      rfl rfl h

/-- Witness of C15: the push of A on a fresh queue of capacity 0. -/
theorem C15_capacity_zero_witness :
    (MediaFrameQueue.new 0 100).m_max = 0 ∧
    (MediaFrameQueue.new 0 100).pushFrameTrace [65] 1 101 =
      some ([EncodedFrame.new [65] 1 1], MediaFrameQueue.new 0 100) :=
  ⟨rfl, (C15_capacity_zero (MediaFrameQueue.new 0 100) (oneByte 65 101) 100 [] rfl).1⟩

/-- C16: on a `MediaMuxer` whose notifier is null and whose fired flag is
false, as the default constructor leaves it, any number of `callback` calls
deliver nothing and leave the object as it is, the flag false and the notifier
null; after a later `resetEventRegistry(N)`, which succeeds, the first
`callback` delivers its data to `N` and the calls after it deliver nothing. -/
theorem C16_null_notifier (m : MediaMuxer) (w : World) (datas : List String)
    (n : RegistryPtr) (d : String) (later : List String)
    (hnull : m.m_callback = none) (hfired : m.m_callbackCalled = false) :
    (MediaMuxer.new none).m_callback = none ∧
    (MediaMuxer.new none).m_callbackCalled = false ∧
    m.callbacks w datas = (m, w) ∧
    (m.callbacks w datas).1.m_callbackCalled = false ∧
    (m.callbacks w datas).1.m_callback = none ∧
    (m.callbacks w datas).1.resetEventRegistry (m.callbacks w datas).2 (some n) =
      (true, { m_status := m.m_status, m_callback := some n, m_callbackCalled := false }, w) ∧
    MediaMuxer.callbacks
        { m_status := m.m_status, m_callback := some n, m_callbackCalled := false } w
        (d :: later) =
      ({ m_status := m.m_status, m_callback := some n, m_callbackCalled := true },
        { w with notified := w.notified ++ [(n, d)] }) := by
  have hcalls := MediaMuxer.callbacks_fired m w datas (Or.inl hnull)
  refine ⟨rfl, rfl, hcalls, by rw [hcalls]; exact hfired, by rw [hcalls]; exact hnull, ?_, ?_⟩
  · rw [hcalls, MediaMuxer.resetEventRegistry_accepted m w (some n) (by simp)
      (by rw [hnull]; simp)]
    simp [hnull]
  · exact MediaMuxer.callbacks_fresh _ w n d later rfl rfl

/-- Witness of C16: two calls on a default-constructed muxer, then the registry
8 and two calls. -/
theorem C16_null_notifier_witness :
    (MediaMuxer.new none).m_callback = none ∧
    (MediaMuxer.new none).m_callbackCalled = false ∧
    (MediaMuxer.new none).callbacks ⟨[], []⟩ ["a", "b"] = (MediaMuxer.new none, ⟨[], []⟩) ∧
    MediaMuxer.callbacks (MediaMuxer.mk .Context_EMPTY (some 8) false) ⟨[], []⟩ ["c", "d"]
      = (MediaMuxer.mk .Context_EMPTY (some 8) true, ⟨[(8, "c")], []⟩) := by
  have h := C16_null_notifier (MediaMuxer.new none) ⟨[], []⟩ ["a", "b"] 8 "c" ["d"] rfl rfl
  exact ⟨rfl, rfl, h.2.2.1, h.2.2.2.2.2.2⟩

/-- C17: the loop of `pushFrame` ends for every queue state and every capacity:
no `pop` of it blocks, it runs `size - m_max` times when the size exceeds
`m_max` and not at all otherwise, each run removing the head entry; in
`pushFrame` that is `max(0, size_before + 1 - m_max)` runs, exactly one, which
discards the oldest entry, when the queue was full and none when it held fewer
than `m_max` entries. -/
theorem C17_eviction_loop (max : Nat) (sq : SharedQueue EncodedFrame) (q : MediaFrameQueue)
    (i : PushInput) :
    (∃ dropped rest, MediaFrameQueue.enforceMax max sq = some (dropped, rest) ∧
      dropped.length = sq.size - max ∧
      dropped ++ rest.items = sq.items ∧
      rest.size = min sq.size max) ∧
    (∃ dropped q1, q.pushFrameTrace i.data i.length i.now = some (dropped, q1) ∧
      (dropped.length : Int) = Max.max 0 ((q.size : Int) + 1 - (q.m_max : Int)) ∧
      (q.size = q.m_max → 1 ≤ q.m_max →
        dropped = q.entries.take 1 ∧ dropped.length = 1) ∧
      (q.size < q.m_max → dropped = [])) := by
  constructor
  · refine ⟨_, _, MediaFrameQueue.enforceMax_eq max sq, ?_, ?_, ?_⟩
    · simp only [List.length_take, SharedQueue.size]
      omega
    · exact List.take_append_drop _ _
    · simp only [SharedQueue.size, List.length_drop]
      omega
  · refine ⟨_, _, MediaFrameQueue.pushFrameTrace_eq q i.data i.length i.now, ?_, ?_, ?_⟩
    · simp only [List.length_take, List.length_append, List.length_singleton,
        MediaFrameQueue.size, MediaFrameQueue.entries, SharedQueue.size]
      omega
    · intro hfull hpos
      have hk : q.size + 1 - q.m_max = 1 := by omega
      have hne : 1 ≤ q.entries.length := by
        simp only [MediaFrameQueue.size, SharedQueue.size, MediaFrameQueue.entries] at hfull ⊢
        omega
      rw [hk, List.take_append_of_le_length hne]
      exact ⟨rfl, by simp only [List.length_take]; omega⟩
    · intro hlt
      have hk : q.size + 1 - q.m_max = 0 := by omega
      rw [hk, List.take_zero]

/-- Witness of C17: a push on a full queue of capacity 2 discards its oldest
entry, and the loop run on three entries with the bound 1 discards two. -/
theorem C17_eviction_loop_witness :
    (∃ dropped q1,
      (MediaFrameQueue.mk ⟨[EncodedFrame.new [65] 1 1, EncodedFrame.new [66] 1 2]⟩ 2
          100).pushFrameTrace [67] 1 103 = some (dropped, q1) ∧
      dropped = [EncodedFrame.new [65] 1 1]) ∧
    (∃ dropped rest,
      MediaFrameQueue.enforceMax 1 ⟨[EncodedFrame.new [65] 1 1, EncodedFrame.new [66] 1 2,
          EncodedFrame.new [67] 1 3]⟩ = some (dropped, rest) ∧
      dropped.length = 2) := by
  obtain ⟨⟨d1, r1, h1, h2, -⟩, d2, q2, h3, -, h5, -⟩ :=
    C17_eviction_loop 1 ⟨[EncodedFrame.new [65] 1 1, EncodedFrame.new [66] 1 2,
        EncodedFrame.new [67] 1 3]⟩
      (MediaFrameQueue.mk ⟨[EncodedFrame.new [65] 1 1, EncodedFrame.new [66] 1 2]⟩ 2 100)
      (oneByte 67 103)
  exact ⟨⟨d2, q2, h3, (h5 rfl (by decide)).1⟩, d1, r1, h1, h2⟩

/-- C18, as the code computes it: for a `timeval` with `tv_sec >= 0` and
`0 <= tv_usec < 1000000` whose millisecond value `tv_sec * 1000 + tv_usec / 1000`
is below `2^63`, `currentTimeMs` returns that value, which is
`floor((tv_sec * 1000000 + tv_usec) / 1000)` and lies in `[0, 2^63)`; on such
`timeval`s it is monotone for the lexicographic order of `(tv_sec, tv_usec)`,
and the difference of two of its values is itself within the `int64_t`
range. -/
theorem C18_currentTimeMs_in_range (a b : Timeval)
    (hasec : 0 ≤ a.tv_sec) (hausec : 0 ≤ a.tv_usec) (hausec2 : a.tv_usec < 1000000)
    (hafit : a.tv_sec * 1000 + a.tv_usec / 1000 < 2 ^ 63)
    (hbsec : 0 ≤ b.tv_sec) (hbusec : 0 ≤ b.tv_usec) (hbusec2 : b.tv_usec < 1000000)
    (hbfit : b.tv_sec * 1000 + b.tv_usec / 1000 < 2 ^ 63)
    (hle : a.lexLE b) :
    currentTimeMs a = a.tv_sec * 1000 + a.tv_usec / 1000 ∧
    currentTimeMs a = (a.tv_sec * 1000000 + a.tv_usec) / 1000 ∧
    0 ≤ currentTimeMs a ∧ currentTimeMs a < 2 ^ 63 ∧
    currentTimeMs a ≤ currentTimeMs b ∧
    wrapInt64 (currentTimeMs b - currentTimeMs a) = currentTimeMs b - currentTimeMs a := by
  have ha := currentTimeMs_exact a hasec hausec hafit
  have hb := currentTimeMs_exact b hbsec hbusec hbfit
  have hle2 : currentTimeMs a ≤ currentTimeMs b := by
    rw [ha, hb]
    rcases hle with h | ⟨h1, h2⟩
    · omega
    · omega
  have hb0 : 0 ≤ currentTimeMs b := by rw [hb]; omega
  have hb1 : currentTimeMs b < 2 ^ 63 := by rw [hb]; exact hbfit
  have ha0 : 0 ≤ currentTimeMs a := by rw [ha]; omega
  refine ⟨ha, ?_, ha0, by rw [ha]; exact hafit, hle2, ?_⟩
  · rw [ha]
    omega
  · exact wrapInt64_eq_self _ (by omega) (by omega)

/-- Witness of C18: two readings within one second. -/
theorem C18_currentTimeMs_in_range_witness :
    currentTimeMs ⟨1700000000, 123456⟩ = 1700000000123 ∧
    currentTimeMs ⟨1700000000, 123456⟩ ≤ currentTimeMs ⟨1700000000, 999999⟩ := by
  have h := C18_currentTimeMs_in_range ⟨1700000000, 123456⟩ ⟨1700000000, 999999⟩
    (by decide) (by decide) (by decide) (by decide) (by decide) (by decide) (by decide)
    (by decide) (Or.inr ⟨rfl, by decide⟩)
  exact ⟨by rw [h.1]; decide, h.2.2.2.2.1⟩

/-- Counterexample to C18: for the `timeval` with `tv_sec = 2^63 - 1` and
`tv_usec = 0` the product `tv_sec * 1000` leaves the 64-bit range and
`currentTimeMs` returns -1000, not `floor((tv_sec * 1000000 + tv_usec) / 1000)`;
and it is not monotone: the `timeval` of `tv_sec = 9223372036854776` gets a
smaller value than the one of `tv_sec = 9223372036854775`. -/
theorem C18_product_overflows :
    currentTimeMs ⟨9223372036854775807, 0⟩ = -1000 ∧
    currentTimeMs ⟨9223372036854775807, 0⟩
      ≠ (9223372036854775807 * 1000000 + 0) / 1000 ∧
    Timeval.lexLE ⟨9223372036854775, 0⟩ ⟨9223372036854776, 0⟩ ∧
    currentTimeMs ⟨9223372036854776, 0⟩ < currentTimeMs ⟨9223372036854775, 0⟩ := by
  refine ⟨by decide, by decide, Or.inl (by decide), by decide⟩

end woogeen_base
